import Mathlib

/-! # deplistgo: a verification development

A shallow embedding of `deplistgo.go`: the function `main` with its closure
`scan`, and `appendAndPrefix`.

* A Go string is a sequence of bytes: `GoString := List Nat`.
* A Go slice of strings is a `List GoString`; the nil slice is `[]`.
* A Go map is an association list with unique keys (`mget`, `mset`, `mkeys`);
  the order in which `range` yields the keys is a parameter of the emitter.
* The resolver `ctx.Import` and the platform constants are the fields of `Env`.
* The goroutines form a transition system (`step`): every `scan` goroutine
  is a `Visitor`, a program counter with its live local variables, and a
  schedule is a list of `Action`s that picks which goroutine runs its next
  block.  The program has no data race (the maps are accessed under `mu`, and
  by the emitter after `wg.Wait()`), so the blocks between two synchronisation
  operations are atomic.
* `log.Fatalf` and the return of `main` set the exit status, after which no
  step is taken.
-/

namespace Deplistgo

/-- A Go string: a sequence of bytes. -/
abbrev GoString := List Nat

/-- The bytes of an ASCII string literal of the source. -/
def ascii (s : String) : GoString := s.toList.map Char.toNat

/-! ## Go maps -/

/-- The map read `v, ok := m[k]`. -/
def mget {α : Type} : List (GoString × α) → GoString → Option α
  | [], _ => none
  | (k', v) :: rest, k => if k' = k then some v else mget rest k

/-- The map write `m[k] = v`. -/
def mset {α : Type} : List (GoString × α) → GoString → α → List (GoString × α)
  | [], k, v => [(k, v)]
  | (k', v') :: rest, k, v => if k' = k then (k, v) :: rest else (k', v') :: mset rest k v

/-- The keys held by a map. -/
def mkeys {α : Type} (m : List (GoString × α)) : List GoString := m.map Prod.fst

/-! ## The resolver's result and the build context -/

/-- The fields of `go/build.Package` that the program reads, and `Dir`, the
directory containing the package sources. -/
structure Package where
  Dir : GoString
  Name : GoString
  Root : GoString
  PkgObj : GoString
  GoFiles : List GoString
  CgoFiles : List GoString
  CFiles : List GoString
  CXXFiles : List GoString
  HFiles : List GoString
  SFiles : List GoString
  SwigFiles : List GoString
  SwigCXXFiles : List GoString
  Imports : List GoString
deriving DecidableEq, Repr

/-- The build context `ctx`, the host platform (`runtime.GOOS`,
`runtime.GOARCH`) and the resolver `ctx.Import(path, "", 0)`, which fails
with `none`. -/
structure Env where
  GOOS : GoString
  GOARCH : GoString
  hostGOOS : GoString
  hostGOARCH : GoString
  Import : GoString → Option Package

/-! ## The pure parts of `scan` -/

/-- The function `appendAndPrefix` (lines 130-135). -/
def appendAndPrefix (slice : List GoString) (pfx : GoString) (src : List GoString) :
    List GoString :=
  src.foldl (fun sl s => sl ++ [pfx ++ s]) slice

/-- The file list built by `scan` (lines 75-84). -/
def scanFiles (pkg : Package) : List GoString :=
  let files : List GoString := []
  let srcdir := pkg.Root ++ ascii "/src/"
  let files := appendAndPrefix files srcdir pkg.GoFiles
  let files := appendAndPrefix files srcdir pkg.CgoFiles
  let files := appendAndPrefix files srcdir pkg.CFiles
  let files := appendAndPrefix files srcdir pkg.CXXFiles
  let files := appendAndPrefix files srcdir pkg.HFiles
  let files := appendAndPrefix files srcdir pkg.SFiles
  let files := appendAndPrefix files srcdir pkg.SwigFiles
  let files := appendAndPrefix files srcdir pkg.SwigCXXFiles
  files

/-- The artifact path computed by `scan` (lines 86-96). -/
def scanOutput (env : Env) (pkg : Package) (path : GoString) : GoString :=
  let outdir := pkg.Root
  if pkg.Name = ascii "main" then
    if env.GOOS = env.hostGOOS ∧ env.GOARCH = env.hostGOARCH then
      outdir ++ ascii "/bin/" ++ path
    else
      outdir ++ ascii "/bin/" ++ env.GOOS ++ ascii "_" ++ env.GOARCH ++ ascii "/" ++ path
  else
    pkg.PkgObj

/-! ## The report emitter -/

/-- The comparison `a < b` of two Go strings: byte-wise lexicographic. -/
def strLess : GoString → GoString → Bool
  | [], [] => false
  | [], _ :: _ => true
  | _ :: _, [] => false
  | a :: as, b :: bs => if a < b then true else if b < a then false else strLess as bs

/-- Insertion of one string into an increasing list. -/
def insertString (x : GoString) : List GoString → List GoString
  | [] => [x]
  | y :: ys => if strLess y x then y :: insertString x ys else x :: y :: ys

/-- The library call `sort.Strings`: the slice in increasing order. -/
def sortStrings : List GoString → List GoString
  | [] => []
  | x :: xs => insertString x (sortStrings xs)

/-- One rule (lines 122-126): `Printf("%s:", o)`, then `Printf(" %s", dep)`
for every dependency, then `Print("\n")`. -/
def emitLine (o : GoString) (ds : List GoString) : GoString :=
  let out := o ++ ascii ":"
  let out := ds.foldl (fun acc dep => acc ++ (ascii " " ++ dep)) out
  out ++ ascii "\n"

/-- The rule of one identifier: `outputs[path]` and `deps[path]`, the zero
value when the key is absent. -/
def ruleOf (deps : List (GoString × List GoString)) (outputs : List (GoString × GoString))
    (path : GoString) : GoString :=
  emitLine ((mget outputs path).getD []) ((mget deps path).getD [])

/-- The lines written by the emitter (lines 115-127); `order` is the order in
which `range deps` yields the keys. -/
def emitLines (deps : List (GoString × List GoString)) (outputs : List (GoString × GoString))
    (order : List GoString) : List GoString :=
  (sortStrings order).map (ruleOf deps outputs)

/-- The bytes written to standard output by the emitter. -/
def emit (deps : List (GoString × List GoString)) (outputs : List (GoString × GoString))
    (order : List GoString) : GoString :=
  (emitLines deps outputs order).foldl (fun acc l => acc ++ l) []

/-! ## The traversal as a transition system -/

/-- The capacity of the channel `fdlimit` (line 51). -/
def fdlimitCap : Nat := 128

/-- The program counter of one `scan` goroutine, with the values of its
live local variables. -/
inductive Visitor where
  /-- About to run the claim step, lines 57-62. -/
  | atClaim (path : GoString)
  /-- Claimed `path`; about to send on `fdlimit`, line 68. -/
  | atAcquire (path : GoString)
  /-- Holds a slot; about to call `ctx.Import`, line 71. -/
  | atImport (path : GoString)
  /-- Inside `log.Fatalf`, line 73: the process is exiting. -/
  | atFatal (path : GoString)
  /-- The resolver returned `pkg`; about to run lines 75-101. -/
  | atStore (path : GoString) (pkg : Package)
  /-- In the loop of lines 103-106, `rest` being the imports still to be spawned. -/
  | atSpawn (path : GoString) (rest : List GoString)
  /-- Returning after the loop: the deferred receive from `fdlimit`. -/
  | atRelease (path : GoString)
  /-- Returning: the deferred `wg.Done()`. -/
  | atDone (path : GoString)
deriving DecidableEq, Repr

/-- The program counter of the main goroutine. -/
inductive MainPC where
  /-- In the loop of lines 109-112, `rest` being the roots still to be launched;
  with `rest = []` blocked in `wg.Wait()`, line 113. -/
  | launch (rest : List GoString)
  /-- `wg.Wait()` has returned; about to run lines 115-127. -/
  | report
  /-- The function `main` has returned. -/
  | returned
deriving DecidableEq, Repr

/-- The state of the process.  `calls`, `claims` and `spawned` are history
variables: the identifiers passed to `ctx.Import`, the identifiers for which
the claim step found `done == false`, and the number of `go scan(...)`
statements executed. -/
structure State where
  deps : List (GoString × List GoString)
  outputs : List (GoString × GoString)
  fdlimit : Nat
  wg : Nat
  visitors : List Visitor
  main : MainPC
  stdout : GoString
  exit : Option Nat
  calls : List GoString
  claims : List GoString
  spawned : Nat
deriving DecidableEq, Repr

/-- What the scheduler picks: one iteration of the root loop, the return of
`wg.Wait()`, the emitter (with the order in which `range deps` yields the
keys), or the next block of the visitor at index `i`. -/
inductive Action where
  | launch
  | wait
  | report (order : List GoString)
  | visit (i : Nat)
deriving DecidableEq, Repr

/-- The next block of a visitor `v` found at index `i`. -/
def stepVisitor (env : Env) (s : State) (i : Nat) : Visitor → Option State
  | .atClaim path =>
    match mget s.deps path with
    | some _ => some { s with visitors := s.visitors.set i (.atDone path) }
    | none =>
      some { s with
        deps := mset s.deps path []
        claims := path :: s.claims
        visitors := s.visitors.set i (.atAcquire path) }
  | .atAcquire path =>
    if s.fdlimit < fdlimitCap then
      some { s with fdlimit := s.fdlimit + 1, visitors := s.visitors.set i (.atImport path) }
    else none
  | .atImport path =>
    match env.Import path with
    | none =>
      some { s with
        calls := path :: s.calls
        visitors := s.visitors.set i (.atFatal path)
        exit := some 1 }
    | some pkg =>
      some { s with
        calls := path :: s.calls
        visitors := s.visitors.set i (.atStore path pkg) }
  | .atFatal _ => none
  | .atStore path pkg =>
    some { s with
      outputs := mset s.outputs path (scanOutput env pkg path)
      deps := mset s.deps path (scanFiles pkg)
      visitors := s.visitors.set i (.atSpawn path pkg.Imports) }
  | .atSpawn path [] => some { s with visitors := s.visitors.set i (.atRelease path) }
  | .atSpawn path (imp :: rest) =>
    some { s with
      wg := s.wg + 1
      visitors := s.visitors.set i (.atSpawn path rest) ++ [.atClaim imp]
      spawned := s.spawned + 1 }
  | .atRelease path =>
    some { s with fdlimit := s.fdlimit - 1, visitors := s.visitors.set i (.atDone path) }
  | .atDone _ => some { s with wg := s.wg - 1, visitors := s.visitors.eraseIdx i }

/-- One atomic step of the process; `none` when the action is not enabled. -/
def step (env : Env) (s : State) : Action → Option State
  | .launch =>
    match s.exit, s.main with
    | none, .launch (root :: rest) =>
      some { s with
        wg := s.wg + 1
        visitors := s.visitors ++ [.atClaim root]
        main := .launch rest
        spawned := s.spawned + 1 }
    | _, _ => none
  | .wait =>
    match s.exit, s.main with
    | none, .launch [] => if s.wg = 0 then some { s with main := .report } else none
    | _, _ => none
  | .report order =>
    match s.exit, s.main with
    | none, .report =>
      if order.Perm (mkeys s.deps) then
        some { s with
          stdout := s.stdout ++ emit s.deps s.outputs order
          main := .returned
          exit := some 0 }
      else none
    | _, _ => none
  | .visit i =>
    match s.exit, s.visitors[i]? with
    | none, some v => stepVisitor env s i v
    | _, _ => none

/-- The state in which the traversal starts (lines 41-52); without roots the
process exits with status 2. -/
def init (roots : List GoString) : State :=
  { deps := [], outputs := [], fdlimit := 0, wg := 0, visitors := [],
    main := .launch roots, stdout := [],
    exit := if roots = [] then some 2 else none,
    calls := [], claims := [], spawned := 0 }

/-- The state reached by a schedule. -/
def run (env : Env) (s : State) : List Action → Option State
  | [] => some s
  | a :: as => (step env s a).bind fun s' => run env s' as

/-- The packages reachable from the roots through import edges. -/
inductive Reach (env : Env) (roots : List GoString) : GoString → Prop where
  | root {r : GoString} : r ∈ roots → Reach env roots r
  | imp {p q : GoString} {pkg : Package} :
      Reach env roots p → env.Import p = some pkg → q ∈ pkg.Imports → Reach env roots q

/-- The order `a ≤ b` of Go strings. -/
def strLE (a b : GoString) : Prop := strLess b a = false

/-! ## The steps as a relation -/

/-- The transitions of `step`, with the list of visitors split around the
visitor that moves. -/
inductive Step (env : Env) : State → State → Prop where
  | launch (s : State) (root : GoString) (rest : List GoString) :
      s.exit = none → s.main = .launch (root :: rest) →
      Step env s { s with
        wg := s.wg + 1, visitors := s.visitors ++ [.atClaim root], main := .launch rest,
        spawned := s.spawned + 1 }
  | wait (s : State) :
      s.exit = none → s.main = .launch [] → s.wg = 0 → Step env s { s with main := .report }
  | report (s : State) (order : List GoString) :
      s.exit = none → s.main = .report → order.Perm (mkeys s.deps) →
      Step env s { s with
        stdout := s.stdout ++ emit s.deps s.outputs order, main := .returned, exit := some 0 }
  | claimOld (s : State) (l₁ l₂ : List Visitor) (path : GoString) (v : List GoString) :
      s.exit = none → s.visitors = l₁ ++ .atClaim path :: l₂ → mget s.deps path = some v →
      Step env s { s with visitors := l₁ ++ .atDone path :: l₂ }
  | claimNew (s : State) (l₁ l₂ : List Visitor) (path : GoString) :
      s.exit = none → s.visitors = l₁ ++ .atClaim path :: l₂ → mget s.deps path = none →
      Step env s { s with
        deps := mset s.deps path [], claims := path :: s.claims,
        visitors := l₁ ++ .atAcquire path :: l₂ }
  | acquire (s : State) (l₁ l₂ : List Visitor) (path : GoString) :
      s.exit = none → s.visitors = l₁ ++ .atAcquire path :: l₂ → s.fdlimit < fdlimitCap →
      Step env s { s with fdlimit := s.fdlimit + 1, visitors := l₁ ++ .atImport path :: l₂ }
  | importErr (s : State) (l₁ l₂ : List Visitor) (path : GoString) :
      s.exit = none → s.visitors = l₁ ++ .atImport path :: l₂ → env.Import path = none →
      Step env s { s with
        calls := path :: s.calls, visitors := l₁ ++ .atFatal path :: l₂, exit := some 1 }
  | importOk (s : State) (l₁ l₂ : List Visitor) (path : GoString) (pkg : Package) :
      s.exit = none → s.visitors = l₁ ++ .atImport path :: l₂ → env.Import path = some pkg →
      Step env s { s with
        calls := path :: s.calls, visitors := l₁ ++ .atStore path pkg :: l₂ }
  | store (s : State) (l₁ l₂ : List Visitor) (path : GoString) (pkg : Package) :
      s.exit = none → s.visitors = l₁ ++ .atStore path pkg :: l₂ →
      Step env s { s with
        outputs := mset s.outputs path (scanOutput env pkg path),
        deps := mset s.deps path (scanFiles pkg),
        visitors := l₁ ++ .atSpawn path pkg.Imports :: l₂ }
  | spawnEnd (s : State) (l₁ l₂ : List Visitor) (path : GoString) :
      s.exit = none → s.visitors = l₁ ++ .atSpawn path [] :: l₂ →
      Step env s { s with visitors := l₁ ++ .atRelease path :: l₂ }
  | spawn (s : State) (l₁ l₂ : List Visitor) (path imp : GoString) (rest : List GoString) :
      s.exit = none → s.visitors = l₁ ++ .atSpawn path (imp :: rest) :: l₂ →
      Step env s { s with
        wg := s.wg + 1, visitors := (l₁ ++ .atSpawn path rest :: l₂) ++ [.atClaim imp],
        spawned := s.spawned + 1 }
  | release (s : State) (l₁ l₂ : List Visitor) (path : GoString) :
      s.exit = none → s.visitors = l₁ ++ .atRelease path :: l₂ →
      Step env s { s with fdlimit := s.fdlimit - 1, visitors := l₁ ++ .atDone path :: l₂ }
  | done (s : State) (l₁ l₂ : List Visitor) (path : GoString) :
      s.exit = none → s.visitors = l₁ ++ .atDone path :: l₂ →
      Step env s { s with wg := s.wg - 1, visitors := l₁ ++ l₂ }

/-! ## Counting invariants -/

/-- Does the visitor hold a slot of `fdlimit`: it has sent on the channel
(line 68) and not yet run the deferred receive. -/
def holds : Visitor → Nat
  | .atImport _ => 1
  | .atFatal _ => 1
  | .atStore _ _ => 1
  | .atSpawn _ _ => 1
  | .atRelease _ => 1
  | _ => 0

/-- Is the visitor inside the resolver call for some package. -/
def inCall : Visitor → Nat
  | .atImport _ => 1
  | _ => 0

/-- Has the visitor claimed `p` and not yet called the resolver. -/
def preCall (p : GoString) : Visitor → Nat
  | .atAcquire q => if q = p then 1 else 0
  | .atImport q => if q = p then 1 else 0
  | _ => 0

/-- Has the visitor claimed `p` and not yet stored its entry. -/
def preStore (p : GoString) : Visitor → Nat
  | .atAcquire q => if q = p then 1 else 0
  | .atImport q => if q = p then 1 else 0
  | .atFatal q => if q = p then 1 else 0
  | .atStore q _ => if q = p then 1 else 0
  | _ => 0

/-- Is the visitor inside `log.Fatalf`. -/
def crashed : Visitor → Nat
  | .atFatal _ => 1
  | _ => 0

/-- The number of occurrences of `p` in a list of identifiers. -/
def occ (p : GoString) : List GoString → Nat
  | [] => 0
  | q :: l => (if q = p then 1 else 0) + occ p l

/-- The sum of a measure over the visitors. -/
def total (f : Visitor → Nat) (l : List Visitor) : Nat := (l.map f).sum

/-- The invariants of the traversal that do not depend on the resolver. -/
structure InvA (roots : List GoString) (s : State) : Prop where
  wg_eq : s.wg = s.visitors.length
  fd_eq : s.fdlimit = total holds s.visitors
  fd_le : s.fdlimit ≤ fdlimitCap
  nodup_deps : (mkeys s.deps).Nodup
  nodup_outputs : (mkeys s.outputs).Nodup
  claims_eq : ∀ p, occ p s.claims = occ p (mkeys s.deps)
  calls_eq : ∀ p, occ p s.calls + total (preCall p) s.visitors = occ p s.claims
  outputs_eq : ∀ p, occ p (mkeys s.outputs) + total (preStore p) s.visitors
      = occ p (mkeys s.deps)
  barrier : (∀ rest, s.main ≠ .launch rest) → s.visitors = []
  returned_iff : s.main = .returned ↔ s.exit = some 0
  crashed_iff : 0 < total crashed s.visitors ↔ s.exit = some 1
  usage_iff : s.exit = some 2 ↔ roots = []
  exit_code : ∀ c, s.exit = some c → c = 0 ∨ c = 1 ∨ c = 2
  stdout_empty : s.main ≠ .returned → s.stdout = []
  stdout_emit : s.main = .returned →
    ∃ order, order.Perm (mkeys s.deps) ∧ s.stdout = emit s.deps s.outputs order

/-! ## Invariants that depend on the resolver -/

/-- What is known of the local variables of a visitor. -/
def VisOK (env : Env) (roots : List GoString) : Visitor → Prop
  | .atClaim p => Reach env roots p
  | .atAcquire p => Reach env roots p
  | .atImport p => Reach env roots p
  | .atFatal p => Reach env roots p ∧ env.Import p = none
  | .atStore p pkg => Reach env roots p ∧ env.Import p = some pkg
  | .atSpawn p rest =>
      Reach env roots p ∧ ∃ pkg, env.Import p = some pkg ∧ ∀ q ∈ rest, q ∈ pkg.Imports
  | .atRelease _ => True
  | .atDone _ => True

/-- The identifier `q` is claimed, or a visit of `q` is pending or still to be
spawned. -/
def Covered (s : State) (q : GoString) : Prop :=
  q ∈ mkeys s.deps ∨ .atClaim q ∈ s.visitors ∨
    (∃ p rest, .atSpawn p rest ∈ s.visitors ∧ q ∈ rest) ∨
    (∃ rest, s.main = .launch rest ∧ q ∈ rest)

/-- The invariants of the traversal that relate the state to the resolver. -/
structure InvB (env : Env) (roots : List GoString) (s : State) : Prop where
  vis_ok : ∀ v ∈ s.visitors, VisOK env roots v
  keys_reach : ∀ p ∈ mkeys s.deps, Reach env roots p
  launch_roots : ∀ rest, s.main = .launch rest → ∀ r ∈ rest, r ∈ roots
  stored : ∀ p ∈ mkeys s.outputs, ∃ pkg, env.Import p = some pkg ∧
      mget s.outputs p = some (scanOutput env pkg p) ∧ mget s.deps p = some (scanFiles pkg)
  roots_cov : ∀ r ∈ roots, Covered s r
  imports_cov : ∀ p ∈ mkeys s.outputs, ∀ pkg, env.Import p = some pkg →
      ∀ q ∈ pkg.Imports, Covered s q

/-- Both groups of invariants. -/
structure Inv (env : Env) (roots : List GoString) (s : State) : Prop where
  a : InvA roots s
  b : InvB env roots s

/-! ## The state after the barrier -/

/-- Has `wg.Wait()` returned: the traversal has finished. -/
def finished (s : State) : Bool :=
  match s.main with
  | .launch _ => false
  | _ => true

/-! ## Termination -/

/-- The number of steps a visitor can still take and cause, not counting the
visits of packages that are not yet claimed. -/
def weight (env : Env) : Visitor → Nat
  | .atClaim _ => 2
  | .atAcquire p =>
    2 + (match env.Import p with | some pkg => 4 + 3 * pkg.Imports.length | none => 0)
  | .atImport p =>
    1 + (match env.Import p with | some pkg => 4 + 3 * pkg.Imports.length | none => 0)
  | .atFatal _ => 0
  | .atStore _ pkg => 4 + 3 * pkg.Imports.length
  | .atSpawn _ rest => 3 + 3 * rest.length
  | .atRelease _ => 2
  | .atDone _ => 1

/-- The steps that the first visit of every identifier of `univ` that is not
yet claimed will take. -/
def unclaimed (env : Env) (keys : List GoString) : List GoString → Nat
  | [] => 0
  | p :: l => (if p ∈ keys then 0 else weight env (.atAcquire p)) + unclaimed env keys l

/-- The number of steps the main goroutine can still take and cause. -/
def mainWeight : MainPC → Nat
  | .launch rest => 2 + 3 * rest.length
  | .report => 1
  | .returned => 0

/-- A bound on the number of steps that remain. -/
def stepsLeft (env : Env) (univ : List GoString) (s : State) : Nat :=
  match s.exit with
  | some _ => 0
  | none => mainWeight s.main + total (weight env) s.visitors + unclaimed env (mkeys s.deps) univ

/-! ## Absence of deadlock -/

/-- The visitors whose next block is not a blocking operation. -/
def ready : Visitor → Bool
  | .atAcquire _ => false
  | .atFatal _ => false
  | _ => true

/-- A decidable test that `univ` contains the roots and the imports of its
members, all of which resolve. -/
def closedUnder (env : Env) (roots univ : List GoString) : Bool :=
  roots.all (fun r => decide (r ∈ univ)) &&
    univ.all (fun p =>
      match env.Import p with
      | some pkg => pkg.Imports.all (fun q => decide (q ∈ univ))
      | none => false)

/-! ## Fixtures -/

/-- A library package `name` under the root `/go`, with one Go file. -/
def libPkg (name : GoString) (imps : List GoString) : Package :=
  { Dir := ascii "/go/src/" ++ name, Name := name, Root := ascii "/go",
    PkgObj := ascii "/go/pkg/linux_amd64/" ++ name ++ ascii ".a",
    GoFiles := [name ++ ascii ".go"], CgoFiles := [], CFiles := [], CXXFiles := [],
    HFiles := [], SFiles := [], SwigFiles := [], SwigCXXFiles := [], Imports := imps }

/-- The package `a/b` of the root `/go`: its sources are in `/go/src/a/b`. -/
def nestedPkg : Package :=
  { Dir := ascii "/go/src/a/b", Name := ascii "b", Root := ascii "/go",
    PkgObj := ascii "/go/pkg/linux_amd64/a/b.a",
    GoFiles := [ascii "x.go"], CgoFiles := [], CFiles := [], CXXFiles := [],
    HFiles := [], SFiles := [], SwigFiles := [], SwigCXXFiles := [], Imports := [] }

/-- A program package under the root `/go`. -/
def progPkg : Package :=
  { Dir := ascii "/go/src/p", Name := ascii "main", Root := ascii "/go",
    PkgObj := [],
    GoFiles := [ascii "main.go"], CgoFiles := [], CFiles := [], CXXFiles := [],
    HFiles := [], SFiles := [], SwigFiles := [], SwigCXXFiles := [], Imports := [] }

/-- A build for the host platform, with the resolver `imp`. -/
def hostEnv (imp : GoString → Option Package) : Env :=
  { GOOS := ascii "linux", GOARCH := ascii "amd64",
    hostGOOS := ascii "linux", hostGOARCH := ascii "amd64", Import := imp }

/-- A build for `linux/arm64` on a `linux/amd64` host. -/
def crossEnv (imp : GoString → Option Package) : Env :=
  { GOOS := ascii "linux", GOARCH := ascii "arm64",
    hostGOOS := ascii "linux", hostGOARCH := ascii "amd64", Import := imp }

/-- The ledger of three packages without source files. -/
def threeDeps : List (GoString × List GoString) :=
  [(ascii "zeta", []), (ascii "alpha", []), (ascii "mid", [])]

/-- The artifacts of the three packages, whose order is not the order of the
identifiers. -/
def threeOutputs : List (GoString × GoString) :=
  [(ascii "zeta", ascii "1.a"), (ascii "alpha", ascii "3.a"), (ascii "mid", ascii "2.a")]

/-! ## Fixtures for the traversal -/

/-- The diamond: `r` imports `a` and `b`, which both import `c`. -/
def diamondEnv : Env :=
  hostEnv fun p =>
    if p = ascii "r" then some (libPkg p [ascii "a", ascii "b"])
    else if p = ascii "a" then some (libPkg p [ascii "c"])
    else if p = ascii "b" then some (libPkg p [ascii "c"])
    else if p = ascii "c" then some (libPkg p [])
    else none

/-- The identifiers of the diamond. -/
def diamondUniv : List GoString := [ascii "r", ascii "a", ascii "b", ascii "c"]

/-- A schedule in which every visitor runs to its end before the next one starts. -/
def diamondSchedule : List Action :=
  [.launch] ++ List.replicate 34 (.visit 0) ++ [.wait, .report diamondUniv]

/-- The state reached by `diamondSchedule` from the root `r`. -/
def diamondEnd : State :=
  (run diamondEnv (init [ascii "r"]) diamondSchedule).getD (init [])

/-- A schedule for the roots `a`, `b` in which every visitor runs to its end
before the next one starts. -/
def pairSchedule : List Action :=
  [.launch] ++ List.replicate 15 (.visit 0) ++ [.launch] ++ List.replicate 10 (.visit 0)
    ++ [.wait, .report [ascii "a", ascii "c", ascii "b"]]

/-- The state reached by `pairSchedule` from the roots `a`, `b`. -/
def pairEnd : State :=
  (run diamondEnv (init [ascii "a", ascii "b"]) pairSchedule).getD (init [])

/-- A schedule for the roots `b`, `a`, `b` that launches all roots first and
prefers the youngest visitors. -/
def pairSchedule2 : List Action :=
  [.launch, .launch, .launch, .visit 2, .visit 2, .visit 2, .visit 2, .visit 2, .visit 3,
   .visit 3, .visit 3, .visit 3, .visit 3, .visit 3, .visit 3, .visit 2, .visit 2, .visit 2,
   .visit 1, .visit 1, .visit 1, .visit 1, .visit 1, .visit 2, .visit 2, .visit 1, .visit 1,
   .visit 1, .visit 0, .visit 0, .wait, .report [ascii "c", ascii "b", ascii "a"]]

/-- The state reached by `pairSchedule2` from the roots `b`, `a`, `b`. -/
def pairEnd2 : State :=
  (run diamondEnv (init [ascii "b", ascii "a", ascii "b"]) pairSchedule2).getD (init [])

/-- The launch of `r`, its claim step and its send on `fdlimit`. -/
def holdSchedule : List Action := [.launch, .visit 0, .visit 0]

/-- The state reached by `holdSchedule` from the root `r`. -/
def holdState : State :=
  (run diamondEnv (init [ascii "r"]) holdSchedule).getD (init [])

/-- A cycle: `a` imports `b`, and `b` imports `a` and itself. -/
def cycleEnv : Env :=
  hostEnv fun p =>
    if p = ascii "a" then some (libPkg p [ascii "b"])
    else if p = ascii "b" then some (libPkg p [ascii "a", ascii "b"])
    else none

/-- A schedule of the cycle from the root `a`. -/
def cycleSchedule : List Action :=
  [.launch] ++ List.replicate 21 (.visit 0) ++ [.wait, .report [ascii "a", ascii "b"]]

/-- The state reached by `cycleSchedule`. -/
def cycleEnd : State :=
  (run cycleEnv (init [ascii "a"]) cycleSchedule).getD (init [])

/-- The root `r` imports `a`, which resolves, and `x`, which does not. -/
def failEnv : Env :=
  hostEnv fun p =>
    if p = ascii "r" then some (libPkg p [ascii "a", ascii "x"])
    else if p = ascii "a" then some (libPkg p [])
    else none

/-- A schedule in which `r` and `a` are stored before `x` is resolved. -/
def failSchedule : List Action := [.launch] ++ List.replicate 19 (.visit 0)

/-- The state reached by `failSchedule`. -/
def failEnd : State :=
  (run failEnv (init [ascii "r"]) failSchedule).getD (init [])

/-- A schedule in which the visitor of `x` reaches `log.Fatalf` before the
visitor of `a` has run its claim step. -/
def abortSchedule : List Action :=
  [.launch] ++ List.replicate 6 (.visit 0) ++ List.replicate 3 (.visit 2)

/-- The state reached by `abortSchedule`. -/
def abortEnd : State :=
  (run failEnv (init [ascii "r"]) abortSchedule).getD (init [])

/-! ## Schedules that reach a package -/

/-- A move of the visitor at index `j` leaves the other visitors in place. -/
def KeepsOthers (j : Nat) (s s' : State) : Prop :=
  ∀ i v, i ≠ j → s.visitors[i]? = some v → s'.visitors[i]? = some v

/-- The run has exited or the entry of `q` is stored. -/
def Settled (q : GoString) (s : State) : Prop :=
  s.exit ≠ none ∨ q ∈ mkeys s.outputs

/-! # Theorems -/

/-! ## Lemmas on Go maps -/

theorem mget_eq_none_iff {α : Type} (m : List (GoString × α)) (k : GoString) :
    mget m k = none ↔ k ∉ mkeys m := by
  induction m with
  | nil => simp [mget, mkeys]
  | cons kv rest ih =>
    obtain ⟨k', v⟩ := kv
    by_cases h : k' = k
    · simp [mget, mkeys, h]
    · have h' : ¬ k = k' := fun e => h e.symm
      simpa [mget, mkeys, h, h'] using ih

theorem mget_isSome_iff {α : Type} (m : List (GoString × α)) (k : GoString) :
    (∃ v, mget m k = some v) ↔ k ∈ mkeys m := by
  rw [← not_iff_not, ← mget_eq_none_iff]
  cases mget m k <;> simp

theorem mget_mset {α : Type} (m : List (GoString × α)) (k k' : GoString) (v : α) :
    mget (mset m k v) k' = if k = k' then some v else mget m k' := by
  induction m with
  | nil => simp [mget, mset]
  | cons kv rest ih =>
    obtain ⟨k₀, v₀⟩ := kv
    by_cases h : k₀ = k
    · subst h
      by_cases h' : k₀ = k' <;> simp [mget, mset, h']
    · by_cases h' : k = k'
      · subst h'
        simp [mget, mset, h, ih]
      · by_cases h'' : k₀ = k'
        · subst h''
          simp [mget, mset, h, h']
        · simp [mget, mset, h, h', h'', ih]

theorem mkeys_mset_of_mem {α : Type} (m : List (GoString × α)) (k : GoString) (v : α)
    (h : k ∈ mkeys m) : mkeys (mset m k v) = mkeys m := by
  induction m with
  | nil => simp [mkeys] at h
  | cons kv rest ih =>
    obtain ⟨k₀, v₀⟩ := kv
    by_cases h' : k₀ = k
    · simp [mset, mkeys, h']
    · have hk : k ∈ mkeys rest := by
        simp only [mkeys, List.map_cons, List.mem_cons] at h
        rcases h with h | h
        · exact absurd h.symm h'
        · exact h
      have := ih hk
      simp only [mkeys] at this
      simp [mset, mkeys, h', this]

theorem mkeys_mset_of_not_mem {α : Type} (m : List (GoString × α)) (k : GoString) (v : α)
    (h : k ∉ mkeys m) : mkeys (mset m k v) = mkeys m ++ [k] := by
  induction m with
  | nil => simp [mkeys, mset]
  | cons kv rest ih =>
    obtain ⟨k₀, v₀⟩ := kv
    simp only [mkeys, List.map_cons, List.mem_cons, not_or] at h
    have h' : ¬ k₀ = k := fun e => h.1 e.symm
    have := ih h.2
    simp only [mkeys] at this
    simp [mset, mkeys, h', this]

theorem mem_mkeys_mset {α : Type} (m : List (GoString × α)) (k k' : GoString) (v : α) :
    k' ∈ mkeys (mset m k v) ↔ k' = k ∨ k' ∈ mkeys m := by
  by_cases h : k ∈ mkeys m
  · rw [mkeys_mset_of_mem m k v h]
    constructor
    · exact Or.inr
    · rintro (e | e)
      · exact e ▸ h
      · exact e
  · rw [mkeys_mset_of_not_mem m k v h]
    simp [or_comm]

theorem nodup_mkeys_mset {α : Type} (m : List (GoString × α)) (k : GoString) (v : α)
    (h : (mkeys m).Nodup) : (mkeys (mset m k v)).Nodup := by
  by_cases hk : k ∈ mkeys m
  · rw [mkeys_mset_of_mem m k v hk]; exact h
  · rw [mkeys_mset_of_not_mem m k v hk]
    rw [List.nodup_append]
    refine ⟨h, List.nodup_singleton k, ?_⟩
    intro a ha hb
    simp only [List.mem_singleton] at hb
    exact hk (hb ▸ ha)

/-! ## Lemmas on the string order and on `sort.Strings` -/

theorem strLess_asymm : ∀ a b : GoString, strLess a b = true → strLess b a = false
  | [], [], h => by simp [strLess] at h
  | [], _ :: _, _ => by simp [strLess]
  | _ :: _, [], h => by simp [strLess] at h
  | x :: xs, y :: ys, h => by
    simp only [strLess] at h ⊢
    by_cases h1 : x < y
    · have h2 : ¬ y < x := by omega
      simp [h2, h1]
    · by_cases h2 : y < x
      · simp [h1, h2] at h
      · simp only [h1, h2, if_false] at h ⊢
        exact strLess_asymm xs ys h

theorem strLess_trans : ∀ a b c : GoString,
    strLess a b = true → strLess b c = true → strLess a c = true
  | [], _, [], _, h2 => by cases ‹GoString› <;> simp [strLess] at h2
  | [], _, _ :: _, _, _ => by simp [strLess]
  | _ :: _, [], _, h1, _ => by simp [strLess] at h1
  | _ :: _, _ :: _, [], _, h2 => by simp [strLess] at h2
  | x :: xs, y :: ys, z :: zs, h1, h2 => by
    simp only [strLess] at h1 h2 ⊢
    by_cases hxy : x < y
    · by_cases hyz : y < z
      · have : x < z := by omega
        simp [this]
      · by_cases hzy : z < y
        · simp [hyz, hzy] at h2
        · have : x < z := by omega
          simp [this]
    · by_cases hyx : y < x
      · simp [hxy, hyx] at h1
      · simp only [hxy, hyx, if_false] at h1
        have hxy' : x = y := by omega
        subst hxy'
        by_cases hxz : x < z
        · simp [hxz]
        · by_cases hzx : z < x
          · simp [hxz, hzx] at h2
          · simp only [hxz, hzx, if_false] at h2 ⊢
            exact strLess_trans xs ys zs h1 h2

theorem strLess_total : ∀ a b : GoString,
    strLess a b = false → strLess b a = false → a = b
  | [], [], _, _ => rfl
  | [], _ :: _, h, _ => by simp [strLess] at h
  | _ :: _, [], _, h => by simp [strLess] at h
  | x :: xs, y :: ys, h1, h2 => by
    simp only [strLess] at h1 h2
    by_cases hxy : x < y
    · simp [hxy] at h1
    · by_cases hyx : y < x
      · simp [hyx] at h2
      · simp only [hxy, hyx, if_false] at h1 h2
        have : x = y := by omega
        rw [this, strLess_total xs ys h1 h2]

theorem strLE_trans (a b c : GoString) (h1 : strLE a b) (h2 : strLE b c) : strLE a c := by
  unfold strLE at *
  cases hca : strLess c a with
  | false => rfl
  | true =>
    cases hab : strLess a b with
    | true =>
      have := strLess_trans c a b hca hab
      rw [h2] at this; cases this
    | false =>
      have e := strLess_total a b hab h1
      subst e
      rw [h2] at hca; cases hca

theorem strLE_antisymm (a b : GoString) (h1 : strLE a b) (h2 : strLE b a) : a = b :=
  strLess_total a b h2 h1

theorem insertString_perm (x : GoString) (l : List GoString) :
    (insertString x l).Perm (x :: l) := by
  induction l with
  | nil => simp [insertString]
  | cons y ys ih =>
    by_cases h : strLess y x = true
    · simp only [insertString, h, if_true]
      exact (List.Perm.cons y ih).trans (List.Perm.swap x y ys)
    · simp [insertString, h]

theorem sortStrings_perm (l : List GoString) : (sortStrings l).Perm l := by
  induction l with
  | nil => simp [sortStrings]
  | cons x xs ih =>
    simp only [sortStrings]
    exact (insertString_perm x _).trans (List.Perm.cons x ih)

theorem insertString_sorted (x : GoString) (l : List GoString)
    (h : l.Pairwise strLE) : (insertString x l).Pairwise strLE := by
  induction l with
  | nil => simp [insertString]
  | cons y ys ih =>
    rw [List.pairwise_cons] at h
    by_cases hyx : strLess y x = true
    · simp only [insertString, hyx, if_true]
      rw [List.pairwise_cons]
      refine ⟨?_, ih h.2⟩
      intro z hz
      have hz' := (insertString_perm x ys).mem_iff.1 hz
      simp only [List.mem_cons] at hz'
      rcases hz' with hz' | hz'
      · subst hz'; exact strLess_asymm y z hyx
      · exact h.1 z hz'
    · have hyx' : strLess y x = false := by simpa using hyx
      simp only [insertString, hyx', Bool.false_eq_true, if_false]
      rw [List.pairwise_cons]
      refine ⟨?_, List.pairwise_cons.2 h⟩
      intro z hz
      simp only [List.mem_cons] at hz
      rcases hz with hz | hz
      · subst hz; exact hyx'
      · exact strLE_trans x y z hyx' (h.1 z hz)

theorem sortStrings_sorted (l : List GoString) : (sortStrings l).Pairwise strLE := by
  induction l with
  | nil => simp [sortStrings]
  | cons x xs ih => exact insertString_sorted x _ ih

theorem sortStrings_eq_of_perm {l₁ l₂ : List GoString} (h : l₁.Perm l₂) :
    sortStrings l₁ = sortStrings l₂ :=
  @List.eq_of_perm_of_sorted _ strLE ⟨strLE_antisymm⟩ _ _
    (((sortStrings_perm l₁).trans h).trans (sortStrings_perm l₂).symm)
    (sortStrings_sorted l₁) (sortStrings_sorted l₂)

theorem sortStrings_strict (l : List GoString) (h : l.Nodup) :
    (sortStrings l).Pairwise (fun a b => strLess a b = true) := by
  have hs := sortStrings_sorted l
  have hn : (sortStrings l).Nodup := (sortStrings_perm l).nodup_iff.2 h
  have := hs.and hn
  refine this.imp ?_
  intro a b hab
  cases hlt : strLess a b with
  | true => rfl
  | false => exact absurd (strLess_total a b hlt hab.1) hab.2

/-! ## Lemmas on the pure parts of `scan` and on the emitter -/

theorem appendAndPrefix_eq (slice : List GoString) (pfx : GoString) (src : List GoString) :
    appendAndPrefix slice pfx src = slice ++ src.map (fun s => pfx ++ s) := by
  unfold appendAndPrefix
  induction src generalizing slice with
  | nil => simp
  | cons s rest ih => simp [List.foldl_cons, ih]

theorem foldl_append_eq (ls : List GoString) (acc : GoString) :
    ls.foldl (fun a l => a ++ l) acc = acc ++ ls.flatten := by
  induction ls generalizing acc with
  | nil => simp
  | cons l rest ih => simp [List.foldl_cons, ih]

theorem emitLine_eq (o : GoString) (ds : List GoString) :
    emitLine o ds = o ++ [58] ++ (ds.map (fun d => 32 :: d)).flatten ++ [10] := by
  have hf : ∀ (l : List GoString) (acc : GoString),
      l.foldl (fun a dep => a ++ (ascii " " ++ dep)) acc
        = acc ++ (l.map (fun d => 32 :: d)).flatten := by
    intro l
    induction l with
    | nil => intro acc; simp
    | cons d rest ih =>
      intro acc
      have e : ascii " " = [32] := by decide
      rw [List.foldl_cons, ih, e]
      simp
  have e1 : ascii ":" = [58] := by decide
  have e2 : ascii "\n" = [10] := by decide
  simp only [emitLine, hf, e1, e2]

/-! ## The executable steps are transitions of `Step` -/

theorem getElem?_split {α : Type} : ∀ (l : List α) (i : Nat) (v : α), l[i]? = some v →
    ∃ l₁ l₂, l = l₁ ++ v :: l₂ ∧ l₁.length = i
  | [], i, v, h => by simp at h
  | x :: xs, 0, v, h => by
    simp at h
    exact ⟨[], xs, by simp [h], rfl⟩
  | x :: xs, i + 1, v, h => by
    simp at h
    obtain ⟨l₁, l₂, e, hl⟩ := getElem?_split xs i v h
    exact ⟨x :: l₁, l₂, by simp [e], by simp [hl]⟩

theorem set_split {α : Type} (l₁ l₂ : List α) (v w : α) :
    (l₁ ++ v :: l₂).set l₁.length w = l₁ ++ w :: l₂ := by
  induction l₁ with
  | nil => simp
  | cons x xs ih => simp [ih]

theorem eraseIdx_split {α : Type} (l₁ l₂ : List α) (v : α) :
    (l₁ ++ v :: l₂).eraseIdx l₁.length = l₁ ++ l₂ := by
  induction l₁ with
  | nil => simp
  | cons x xs ih => simp [ih]

/-- Every step of the executable semantics is a transition of `Step`. -/
theorem step_sound (env : Env) (s s' : State) (a : Action) (h : step env s a = some s') :
    Step env s s' := by
  cases a with
  | launch =>
    simp only [step] at h
    split at h
    · rename_i root rest he hm
      cases h
      exact Step.launch s root rest he hm
    · cases h
  | wait =>
    simp only [step] at h
    split at h
    · rename_i he hm
      split at h
      · rename_i hw
        cases h
        exact Step.wait s he hm hw
      · cases h
    · cases h
  | report order =>
    simp only [step] at h
    split at h
    · rename_i he hm
      split at h
      · rename_i hp
        cases h
        exact Step.report s order he hm hp
      · cases h
    · cases h
  | visit i =>
    simp only [step] at h
    split at h
    · rename_i v he hv
      obtain ⟨l₁, l₂, hl, hlen⟩ := getElem?_split _ _ _ hv
      subst hlen
      cases v with
      | atClaim path =>
        simp only [stepVisitor] at h
        split at h
        · rename_i w hw
          cases h
          rw [hl, set_split]
          exact Step.claimOld s l₁ l₂ path w he hl hw
        · rename_i hw
          cases h
          rw [hl, set_split]
          exact Step.claimNew s l₁ l₂ path he hl hw
      | atAcquire path =>
        simp only [stepVisitor] at h
        split at h
        · rename_i hfd
          cases h
          rw [hl, set_split]
          exact Step.acquire s l₁ l₂ path he hl hfd
        · cases h
      | atImport path =>
        simp only [stepVisitor] at h
        split at h
        · rename_i hr
          cases h
          rw [hl, set_split]
          exact Step.importErr s l₁ l₂ path he hl hr
        · rename_i pkg hr
          cases h
          rw [hl, set_split]
          exact Step.importOk s l₁ l₂ path pkg he hl hr
      | atFatal path => simp [stepVisitor] at h
      | atStore path pkg =>
        simp only [stepVisitor] at h
        cases h
        rw [hl, set_split]
        exact Step.store s l₁ l₂ path pkg he hl
      | atSpawn path rest =>
        cases rest with
        | nil =>
          simp only [stepVisitor] at h
          cases h
          rw [hl, set_split]
          exact Step.spawnEnd s l₁ l₂ path he hl
        | cons imp rest =>
          simp only [stepVisitor] at h
          cases h
          rw [hl, set_split]
          exact Step.spawn s l₁ l₂ path imp rest he hl
      | atRelease path =>
        simp only [stepVisitor] at h
        cases h
        rw [hl, set_split]
        exact Step.release s l₁ l₂ path he hl
      | atDone path =>
        simp only [stepVisitor] at h
        cases h
        rw [hl, eraseIdx_split]
        exact Step.done s l₁ l₂ path he hl
    · cases h

/-! ## Counting -/

@[simp] theorem occ_nil (p : GoString) : occ p [] = 0 := rfl

@[simp] theorem occ_cons (p q : GoString) (l : List GoString) :
    occ p (q :: l) = (if q = p then 1 else 0) + occ p l := rfl

@[simp] theorem occ_append (p : GoString) (l₁ l₂ : List GoString) :
    occ p (l₁ ++ l₂) = occ p l₁ + occ p l₂ := by
  induction l₁ with
  | nil => simp
  | cons q l ih => simp [ih, Nat.add_assoc]

theorem occ_eq_zero_iff (p : GoString) (l : List GoString) : occ p l = 0 ↔ p ∉ l := by
  induction l with
  | nil => simp
  | cons q l ih =>
    by_cases h : q = p
    · simp [h]
    · have h' : ¬ p = q := fun e => h e.symm
      simp [h, h', ih]

theorem occ_pos_iff (p : GoString) (l : List GoString) : 0 < occ p l ↔ p ∈ l := by
  rw [← not_iff_not, ← occ_eq_zero_iff]
  omega

theorem occ_le_one_of_nodup {l : List GoString} (h : l.Nodup) (p : GoString) :
    occ p l ≤ 1 := by
  induction l with
  | nil => simp
  | cons q l ih =>
    rw [List.nodup_cons] at h
    have := ih h.2
    by_cases e : q = p
    · subst e
      have := (occ_eq_zero_iff q l).2 h.1
      simp [this]
    · simp [e, this]

@[simp] theorem total_nil (f : Visitor → Nat) : total f [] = 0 := rfl

@[simp] theorem total_cons (f : Visitor → Nat) (v : Visitor) (l : List Visitor) :
    total f (v :: l) = f v + total f l := by simp [total]

@[simp] theorem total_append (f : Visitor → Nat) (l₁ l₂ : List Visitor) :
    total f (l₁ ++ l₂) = total f l₁ + total f l₂ := by simp [total]

theorem total_pos_of_mem (f : Visitor → Nat) (l : List Visitor) (v : Visitor)
    (h : v ∈ l) (hv : 0 < f v) : 0 < total f l := by
  obtain ⟨l₁, l₂, e⟩ := List.append_of_mem h
  subst e
  simp only [total_append, total_cons]
  omega

theorem exists_of_total_pos (f : Visitor → Nat) (l : List Visitor) (h : 0 < total f l) :
    ∃ v ∈ l, 0 < f v := by
  induction l with
  | nil => simp at h
  | cons x xs ih =>
    simp only [total_cons] at h
    by_cases hx : 0 < f x
    · exact ⟨x, by simp, hx⟩
    · have : 0 < total f xs := by omega
      obtain ⟨v, hv, hf⟩ := ih this
      exact ⟨v, by simp [hv], hf⟩

/-! ## The invariants that do not depend on the resolver -/

theorem InvA_init (roots : List GoString) : InvA roots (init roots) := by
  by_cases h : roots = []
  · subst h
    constructor <;> simp [init, mkeys, fdlimitCap]
  · obtain ⟨r, rest, e⟩ := List.exists_cons_of_ne_nil h
    subst e
    constructor <;> simp [init, mkeys, fdlimitCap]

theorem not_mem_of_mget_none {α : Type} {m : List (GoString × α)} {k : GoString}
    (h : mget m k = none) : k ∉ mkeys m := (mget_eq_none_iff m k).1 h

theorem mem_of_mget_some {α : Type} {m : List (GoString × α)} {k : GoString} {v : α}
    (h : mget m k = some v) : k ∈ mkeys m := (mget_isSome_iff m k).1 ⟨v, h⟩

theorem wg_eq_step (env : Env) (s s' : State) (h : Step env s s')
    (h1 : s.wg = s.visitors.length) : s'.wg = s'.visitors.length := by
  obtain ⟨deps, outputs, fd, wg, vis, main, out, ex, calls, claims, spawned⟩ := s
  cases h <;> simp only [] at * <;> subst_vars <;> (simp at *; try omega)

theorem fd_eq_step (env : Env) (s s' : State) (h : Step env s s')
    (h1 : s.fdlimit = total holds s.visitors) : s'.fdlimit = total holds s'.visitors := by
  obtain ⟨deps, outputs, fd, wg, vis, main, out, ex, calls, claims, spawned⟩ := s
  cases h <;> simp only [] at * <;> subst_vars <;> simp [holds] at * <;> omega

theorem fd_le_step (env : Env) (s s' : State) (h : Step env s s')
    (h1 : s.fdlimit ≤ fdlimitCap) : s'.fdlimit ≤ fdlimitCap := by
  obtain ⟨deps, outputs, fd, wg, vis, main, out, ex, calls, claims, spawned⟩ := s
  cases h <;> simp only [] at * <;> omega

theorem nodup_deps_step (env : Env) (s s' : State) (h : Step env s s')
    (h1 : (mkeys s.deps).Nodup) : (mkeys s'.deps).Nodup := by
  obtain ⟨deps, outputs, fd, wg, vis, main, out, ex, calls, claims, spawned⟩ := s
  cases h <;> simp only [] at * <;> first | assumption | exact nodup_mkeys_mset _ _ _ h1

theorem nodup_outputs_step (env : Env) (s s' : State) (h : Step env s s')
    (h1 : (mkeys s.outputs).Nodup) : (mkeys s'.outputs).Nodup := by
  obtain ⟨deps, outputs, fd, wg, vis, main, out, ex, calls, claims, spawned⟩ := s
  cases h <;> simp only [] at * <;> first | assumption | exact nodup_mkeys_mset _ _ _ h1

theorem store_keys (s : State) (l₁ l₂ : List Visitor) (path : GoString) (pkg : Package)
    (hv : s.visitors = l₁ ++ .atStore path pkg :: l₂)
    (hn : (mkeys s.deps).Nodup)
    (ho : ∀ p, occ p (mkeys s.outputs) + total (preStore p) s.visitors = occ p (mkeys s.deps)) :
    path ∈ mkeys s.deps ∧ path ∉ mkeys s.outputs := by
  have h := ho path
  have hle := occ_le_one_of_nodup hn path
  rw [hv] at h
  simp only [total_append, total_cons, preStore, if_true] at h
  constructor
  · rw [← occ_pos_iff]; omega
  · rw [← occ_eq_zero_iff]; omega

theorem claims_eq_step (env : Env) (s s' : State) (h : Step env s s')
    (hn : (mkeys s.deps).Nodup)
    (ho : ∀ p, occ p (mkeys s.outputs) + total (preStore p) s.visitors = occ p (mkeys s.deps))
    (h1 : ∀ p, occ p s.claims = occ p (mkeys s.deps)) :
    ∀ p, occ p s'.claims = occ p (mkeys s'.deps) := by
  cases h with
  | claimNew l₁ l₂ path he hv hg =>
    intro p
    simp only []
    rw [mkeys_mset_of_not_mem _ _ _ (not_mem_of_mget_none hg)]
    have := h1 p
    simp only [occ_cons, occ_append, occ_nil]
    omega
  | store l₁ l₂ path pkg he hv =>
    intro p
    simp only []
    rw [mkeys_mset_of_mem _ _ _ (store_keys s l₁ l₂ path pkg hv hn ho).1]
    exact h1 p
  | _ => exact h1

theorem calls_eq_step (env : Env) (s s' : State) (h : Step env s s')
    (h1 : ∀ p, occ p s.calls + total (preCall p) s.visitors = occ p s.claims) :
    ∀ p, occ p s'.calls + total (preCall p) s'.visitors = occ p s'.claims := by
  intro p
  have h2 := h1 p
  cases h with
  | launch root rest he hm =>
    simp only [total_append, total_cons, preCall, total_nil]
    omega
  | wait he hm hw => exact h2
  | report order he hm hp => exact h2
  | claimOld l₁ l₂ path v he hv hg =>
    rw [hv] at h2
    simp only [total_append, total_cons, preCall] at h2 ⊢
    omega
  | claimNew l₁ l₂ path he hv hg =>
    rw [hv] at h2
    simp only [total_append, total_cons, preCall, occ_cons] at h2 ⊢
    omega
  | acquire l₁ l₂ path he hv hfd =>
    rw [hv] at h2
    simp only [total_append, total_cons, preCall] at h2 ⊢
    omega
  | importErr l₁ l₂ path he hv hr =>
    rw [hv] at h2
    simp only [total_append, total_cons, preCall, occ_cons] at h2 ⊢
    omega
  | importOk l₁ l₂ path pkg he hv hr =>
    rw [hv] at h2
    simp only [total_append, total_cons, preCall, occ_cons] at h2 ⊢
    omega
  | store l₁ l₂ path pkg he hv =>
    rw [hv] at h2
    simp only [total_append, total_cons, preCall] at h2 ⊢
    omega
  | spawnEnd l₁ l₂ path he hv =>
    rw [hv] at h2
    simp only [total_append, total_cons, preCall] at h2 ⊢
    omega
  | spawn l₁ l₂ path imp rest he hv =>
    rw [hv] at h2
    simp only [total_append, total_cons, preCall, total_nil] at h2 ⊢
    omega
  | release l₁ l₂ path he hv =>
    rw [hv] at h2
    simp only [total_append, total_cons, preCall] at h2 ⊢
    omega
  | done l₁ l₂ path he hv =>
    rw [hv] at h2
    simp only [total_append, total_cons, preCall] at h2 ⊢
    omega

theorem outputs_eq_step (env : Env) (s s' : State) (h : Step env s s')
    (hn : (mkeys s.deps).Nodup)
    (h1 : ∀ p, occ p (mkeys s.outputs) + total (preStore p) s.visitors = occ p (mkeys s.deps)) :
    ∀ p, occ p (mkeys s'.outputs) + total (preStore p) s'.visitors = occ p (mkeys s'.deps) := by
  intro p
  have h2 := h1 p
  cases h with
  | claimNew l₁ l₂ path he hv hg =>
    simp only []
    rw [mkeys_mset_of_not_mem _ _ _ (not_mem_of_mget_none hg)]
    rw [hv] at h2
    simp only [total_append, total_cons, preStore, occ_append, occ_cons, occ_nil] at h2 ⊢
    omega
  | store l₁ l₂ path pkg he hv =>
    have hk := store_keys s l₁ l₂ path pkg hv hn h1
    simp only []
    rw [mkeys_mset_of_mem _ _ _ hk.1, mkeys_mset_of_not_mem _ _ _ hk.2]
    rw [hv] at h2
    simp only [total_append, total_cons, preStore, occ_append, occ_cons, occ_nil] at h2 ⊢
    omega
  | launch root rest he hm =>
    simp only []
    simp only [total_append, total_cons, preStore, total_nil]
    omega
  | wait he hm hw => exact h2
  | report order he hm hp => exact h2
  | claimOld l₁ l₂ path v he hv hg =>
    rw [hv] at h2
    simp only [total_append, total_cons, preStore] at h2 ⊢
    omega
  | acquire l₁ l₂ path he hv hfd =>
    rw [hv] at h2
    simp only [total_append, total_cons, preStore] at h2 ⊢
    omega
  | importErr l₁ l₂ path he hv hr =>
    rw [hv] at h2
    simp only [total_append, total_cons, preStore] at h2 ⊢
    omega
  | importOk l₁ l₂ path pkg he hv hr =>
    rw [hv] at h2
    simp only [total_append, total_cons, preStore] at h2 ⊢
    omega
  | spawnEnd l₁ l₂ path he hv =>
    rw [hv] at h2
    simp only [total_append, total_cons, preStore] at h2 ⊢
    omega
  | spawn l₁ l₂ path imp rest he hv =>
    rw [hv] at h2
    simp only [total_append, total_cons, preStore, total_nil] at h2 ⊢
    omega
  | release l₁ l₂ path he hv =>
    rw [hv] at h2
    simp only [total_append, total_cons, preStore] at h2 ⊢
    omega
  | done l₁ l₂ path he hv =>
    rw [hv] at h2
    simp only [total_append, total_cons, preStore] at h2 ⊢
    omega

theorem barrier_step (env : Env) (s s' : State) (h : Step env s s')
    (hw : s.wg = s.visitors.length)
    (h1 : (∀ rest, s.main ≠ .launch rest) → s.visitors = []) :
    (∀ rest, s'.main ≠ .launch rest) → s'.visitors = [] := by
  intro hm
  cases h with
  | launch root rest he hm' => exact absurd rfl (hm rest)
  | wait he hm' hw' => exact List.length_eq_zero.1 (hw.symm.trans hw')
  | report order he hm' hp => exact h1 (fun rest e => by rw [hm'] at e; cases e)
  | claimOld l₁ l₂ path v he hv hg => have := h1 hm; rw [hv] at this; simp at this
  | claimNew l₁ l₂ path he hv hg => have := h1 hm; rw [hv] at this; simp at this
  | acquire l₁ l₂ path he hv hfd => have := h1 hm; rw [hv] at this; simp at this
  | importErr l₁ l₂ path he hv hr => have := h1 hm; rw [hv] at this; simp at this
  | importOk l₁ l₂ path pkg he hv hr => have := h1 hm; rw [hv] at this; simp at this
  | store l₁ l₂ path pkg he hv => have := h1 hm; rw [hv] at this; simp at this
  | spawnEnd l₁ l₂ path he hv => have := h1 hm; rw [hv] at this; simp at this
  | spawn l₁ l₂ path imp rest he hv => have := h1 hm; rw [hv] at this; simp at this
  | release l₁ l₂ path he hv => have := h1 hm; rw [hv] at this; simp at this
  | done l₁ l₂ path he hv => have := h1 hm; rw [hv] at this; simp at this

theorem returned_iff_step (env : Env) (s s' : State) (h : Step env s s')
    (h1 : s.main = .returned ↔ s.exit = some 0) : s'.main = .returned ↔ s'.exit = some 0 := by
  obtain ⟨deps, outputs, fd, wg, vis, main, out, ex, calls, claims, spawned⟩ := s
  cases h <;> simp only [] at * <;> subst_vars <;> simp at * <;> assumption

theorem crashed_iff_step (env : Env) (s s' : State) (h : Step env s s')
    (h1 : 0 < total crashed s.visitors ↔ s.exit = some 1) :
    0 < total crashed s'.visitors ↔ s'.exit = some 1 := by
  obtain ⟨deps, outputs, fd, wg, vis, main, out, ex, calls, claims, spawned⟩ := s
  cases h <;> simp only [] at * <;> subst_vars <;> simp [crashed] at * <;> assumption

theorem usage_iff_step (env : Env) (roots : List GoString) (s s' : State) (h : Step env s s')
    (h1 : s.exit = some 2 ↔ roots = []) : s'.exit = some 2 ↔ roots = [] := by
  obtain ⟨deps, outputs, fd, wg, vis, main, out, ex, calls, claims, spawned⟩ := s
  cases h <;> simp only [] at * <;> subst_vars <;> simp at * <;> assumption

theorem exit_code_step (env : Env) (s s' : State) (h : Step env s s')
    (h1 : ∀ c, s.exit = some c → c = 0 ∨ c = 1 ∨ c = 2) :
    ∀ c, s'.exit = some c → c = 0 ∨ c = 1 ∨ c = 2 := by
  obtain ⟨deps, outputs, fd, wg, vis, main, out, ex, calls, claims, spawned⟩ := s
  cases h <;> simp only [] at * <;> subst_vars <;> simp at *

theorem stdout_empty_step (env : Env) (s s' : State) (h : Step env s s')
    (h1 : s.main ≠ .returned → s.stdout = []) : s'.main ≠ .returned → s'.stdout = [] := by
  obtain ⟨deps, outputs, fd, wg, vis, main, out, ex, calls, claims, spawned⟩ := s
  cases h <;> simp only [] at * <;> subst_vars <;> simp at * <;> assumption

theorem stdout_emit_step (env : Env) (s s' : State) (h : Step env s s')
    (hr : s.main = .returned ↔ s.exit = some 0)
    (he : s.main ≠ .returned → s.stdout = []) :
    s'.main = .returned →
      ∃ order, order.Perm (mkeys s'.deps) ∧ s'.stdout = emit s'.deps s'.outputs order := by
  obtain ⟨deps, outputs, fd, wg, vis, main, out, ex, calls, claims, spawned⟩ := s
  cases h with
  | report order hex hm hp =>
    simp only [] at *
    subst hm
    intro _
    exact ⟨order, hp, by simp [he (by simp)]⟩
  | _ => simp only [] at *; subst_vars; simp at *; try simp [hr]

theorem InvA_step (env : Env) (roots : List GoString) (s s' : State)
    (h : Step env s s') (hi : InvA roots s) : InvA roots s' where
  wg_eq := wg_eq_step env s s' h hi.wg_eq
  fd_eq := fd_eq_step env s s' h hi.fd_eq
  fd_le := fd_le_step env s s' h hi.fd_le
  nodup_deps := nodup_deps_step env s s' h hi.nodup_deps
  nodup_outputs := nodup_outputs_step env s s' h hi.nodup_outputs
  claims_eq := claims_eq_step env s s' h hi.nodup_deps hi.outputs_eq hi.claims_eq
  calls_eq := calls_eq_step env s s' h hi.calls_eq
  outputs_eq := outputs_eq_step env s s' h hi.nodup_deps hi.outputs_eq
  barrier := barrier_step env s s' h hi.wg_eq hi.barrier
  returned_iff := returned_iff_step env s s' h hi.returned_iff
  crashed_iff := crashed_iff_step env s s' h hi.crashed_iff
  usage_iff := usage_iff_step env roots s s' h hi.usage_iff
  exit_code := exit_code_step env s s' h hi.exit_code
  stdout_empty := stdout_empty_step env s s' h hi.stdout_empty
  stdout_emit := stdout_emit_step env s s' h hi.returned_iff hi.stdout_empty

/-! ## The invariants that depend on the resolver -/

theorem Covered_step (env : Env) (s s' : State) (h : Step env s s') (q : GoString)
    (hc : Covered s q) : Covered s' q := by
  obtain ⟨deps, outputs, fd, wg, vis, main, out, ex, calls, claims, spawned⟩ := s
  unfold Covered at *
  cases h with
  | launch root rest he hm =>
    simp only [] at *
    subst hm
    simp only [List.mem_append, List.mem_singleton, Visitor.atClaim.injEq, MainPC.launch.injEq,
      exists_eq_left', List.mem_cons, reduceCtorEq, false_and, exists_false, or_false,
      List.not_mem_nil, false_or] at hc ⊢
    rcases hc with hc | hc | ⟨p, rest', h1, h2⟩ | hc | hc
    · exact Or.inl hc
    · exact Or.inr (Or.inl (Or.inl hc))
    · exact Or.inr (Or.inr (Or.inl ⟨p, rest', h1, h2⟩))
    · exact Or.inr (Or.inl (Or.inr hc))
    · exact Or.inr (Or.inr (Or.inr hc))
  | wait he hm hw =>
    simp only [] at *
    subst hm
    rcases hc with hc | hc | hc | ⟨rest, h1, h2⟩
    · exact Or.inl hc
    · exact Or.inr (Or.inl hc)
    · exact Or.inr (Or.inr (Or.inl hc))
    · cases h1; cases h2
  | report order he hm hp =>
    simp only [] at *
    subst hm
    rcases hc with hc | hc | hc | ⟨rest, h1, h2⟩
    · exact Or.inl hc
    · exact Or.inr (Or.inl hc)
    · exact Or.inr (Or.inr (Or.inl hc))
    · cases h1
  | claimOld l₁ l₂ path v he hv hg =>
    simp only [] at *
    subst hv
    have hk := mem_of_mget_some hg
    simp only [List.mem_append, List.mem_cons, reduceCtorEq, false_or,
      Visitor.atClaim.injEq] at hc ⊢
    rcases hc with hc | hc | hc | hc
    · exact Or.inl hc
    · rcases hc with hc | hc | hc
      · exact Or.inr (Or.inl (Or.inl hc))
      · exact Or.inl (hc ▸ hk)
      · exact Or.inr (Or.inl (Or.inr hc))
    · exact Or.inr (Or.inr (Or.inl hc))
    · exact Or.inr (Or.inr (Or.inr hc))
  | claimNew l₁ l₂ path he hv hg =>
    simp only [] at *
    subst hv
    simp only [List.mem_append, List.mem_cons, reduceCtorEq, false_or,
      Visitor.atClaim.injEq, mem_mkeys_mset] at hc ⊢
    rcases hc with hc | hc | hc | hc
    · exact Or.inl (Or.inr hc)
    · rcases hc with hc | hc | hc
      · exact Or.inr (Or.inl (Or.inl hc))
      · exact Or.inl (Or.inl hc)
      · exact Or.inr (Or.inl (Or.inr hc))
    · exact Or.inr (Or.inr (Or.inl hc))
    · exact Or.inr (Or.inr (Or.inr hc))
  | acquire l₁ l₂ path he hv hfd =>
    simp only [] at *
    subst hv
    simpa only [List.mem_append, List.mem_cons, reduceCtorEq, false_or] using hc
  | importErr l₁ l₂ path he hv hr =>
    simp only [] at *
    subst hv
    simpa only [List.mem_append, List.mem_cons, reduceCtorEq, false_or] using hc
  | importOk l₁ l₂ path pkg he hv hr =>
    simp only [] at *
    subst hv
    simpa only [List.mem_append, List.mem_cons, reduceCtorEq, false_or] using hc
  | store l₁ l₂ path pkg he hv =>
    simp only [] at *
    subst hv
    simp only [List.mem_append, List.mem_cons, reduceCtorEq, false_or,
      Visitor.atSpawn.injEq, mem_mkeys_mset] at hc ⊢
    rcases hc with hc | hc | ⟨p, rest, h1, h2⟩ | hc
    · exact Or.inl (Or.inr hc)
    · exact Or.inr (Or.inl hc)
    · refine Or.inr (Or.inr (Or.inl ⟨p, rest, ?_, h2⟩))
      rcases h1 with h1 | h1
      · exact Or.inl h1
      · exact Or.inr (Or.inr h1)
    · exact Or.inr (Or.inr (Or.inr hc))
  | spawnEnd l₁ l₂ path he hv =>
    simp only [] at *
    subst hv
    simp only [List.mem_append, List.mem_cons, reduceCtorEq, false_or,
      Visitor.atSpawn.injEq] at hc ⊢
    rcases hc with hc | hc | ⟨p, rest, h1, h2⟩ | hc
    · exact Or.inl hc
    · exact Or.inr (Or.inl hc)
    · refine Or.inr (Or.inr (Or.inl ⟨p, rest, ?_, h2⟩))
      rcases h1 with h1 | ⟨_, h1⟩ | h1
      · exact Or.inl h1
      · subst h1; cases h2
      · exact Or.inr h1
    · exact Or.inr (Or.inr (Or.inr hc))
  | spawn l₁ l₂ path imp rest he hv =>
    simp only [] at *
    subst hv
    simp only [List.mem_append, List.mem_cons, reduceCtorEq, false_or, or_false,
      Visitor.atSpawn.injEq, Visitor.atClaim.injEq, List.mem_singleton, List.not_mem_nil] at hc ⊢
    rcases hc with hc | hc | ⟨p, rest', h1, h2⟩ | hc
    · exact Or.inl hc
    · exact Or.inr (Or.inl (Or.inl hc))
    · rcases h1 with h1 | ⟨h0, h1⟩ | h1
      · exact Or.inr (Or.inr (Or.inl ⟨p, rest', Or.inl h1, h2⟩))
      · subst h1
        simp only [List.mem_cons] at h2
        rcases h2 with h2 | h2
        · exact Or.inr (Or.inl (Or.inr h2))
        · exact Or.inr (Or.inr (Or.inl ⟨p, rest, Or.inr (Or.inl ⟨h0, rfl⟩), h2⟩))
      · exact Or.inr (Or.inr (Or.inl ⟨p, rest', Or.inr (Or.inr h1), h2⟩))
    · exact Or.inr (Or.inr (Or.inr hc))
  | release l₁ l₂ path he hv =>
    simp only [] at *
    subst hv
    simpa only [List.mem_append, List.mem_cons, reduceCtorEq, false_or] using hc
  | done l₁ l₂ path he hv =>
    simp only [] at *
    subst hv
    simpa only [List.mem_append, List.mem_cons, reduceCtorEq, false_or] using hc

theorem mem_update {l₁ l₂ : List Visitor} {v y : Visitor} (x : Visitor)
    (h : v ∈ l₁ ++ y :: l₂) : v = y ∨ v ∈ l₁ ++ x :: l₂ := by
  simp only [List.mem_append, List.mem_cons] at h ⊢
  rcases h with h | h | h
  · exact Or.inr (Or.inl h)
  · exact Or.inl h
  · exact Or.inr (Or.inr (Or.inr h))

theorem mem_split_self {l₁ l₂ : List Visitor} (x : Visitor) : x ∈ l₁ ++ x :: l₂ := by
  simp

theorem vis_ok_step (env : Env) (roots : List GoString) (s s' : State) (h : Step env s s')
    (hl : ∀ rest, s.main = .launch rest → ∀ r ∈ rest, r ∈ roots)
    (h1 : ∀ v ∈ s.visitors, VisOK env roots v) :
    ∀ v ∈ s'.visitors, VisOK env roots v := by
  intro v hv'
  cases h with
  | launch root rest he hm =>
    simp only [List.mem_append, List.mem_singleton] at hv'
    rcases hv' with hv' | hv'
    · exact h1 v hv'
    · subst hv'
      exact Reach.root (hl _ hm root (by simp))
  | wait he hm hw => exact h1 v hv'
  | report order he hm hp => exact h1 v hv'
  | claimOld l₁ l₂ path w he hv hg =>
    rcases mem_update (.atClaim path) hv' with e | e
    · subst e; trivial
    · exact h1 v (hv ▸ e)
  | claimNew l₁ l₂ path he hv hg =>
    rcases mem_update (.atClaim path) hv' with e | e
    · subst e; exact h1 (.atClaim path) (hv ▸ mem_split_self _)
    · exact h1 v (hv ▸ e)
  | acquire l₁ l₂ path he hv hfd =>
    rcases mem_update (.atAcquire path) hv' with e | e
    · subst e; exact h1 (.atAcquire path) (hv ▸ mem_split_self _)
    · exact h1 v (hv ▸ e)
  | importErr l₁ l₂ path he hv hr =>
    rcases mem_update (.atImport path) hv' with e | e
    · subst e; exact ⟨h1 (.atImport path) (hv ▸ mem_split_self _), hr⟩
    · exact h1 v (hv ▸ e)
  | importOk l₁ l₂ path pkg he hv hr =>
    rcases mem_update (.atImport path) hv' with e | e
    · subst e; exact ⟨h1 (.atImport path) (hv ▸ mem_split_self _), hr⟩
    · exact h1 v (hv ▸ e)
  | store l₁ l₂ path pkg he hv =>
    rcases mem_update (.atStore path pkg) hv' with e | e
    · subst e
      have := h1 (.atStore path pkg) (hv ▸ mem_split_self _)
      exact ⟨this.1, pkg, this.2, fun q hq => hq⟩
    · exact h1 v (hv ▸ e)
  | spawnEnd l₁ l₂ path he hv =>
    rcases mem_update (.atSpawn path []) hv' with e | e
    · subst e; trivial
    · exact h1 v (hv ▸ e)
  | spawn l₁ l₂ path imp rest he hv =>
    have h0 := h1 (.atSpawn path (imp :: rest)) (hv ▸ mem_split_self _)
    obtain ⟨hr, pkg, hp, hsub⟩ := h0
    simp only [List.mem_append, List.mem_singleton] at hv'
    rcases hv' with hv' | hv'
    · rcases mem_update (.atSpawn path (imp :: rest)) (List.mem_append.2 hv') with e | e
      · subst e
        exact ⟨hr, pkg, hp, fun q hq => hsub q (List.mem_cons_of_mem _ hq)⟩
      · exact h1 v (hv ▸ e)
    · subst hv'
      exact Reach.imp hr hp (hsub imp (by simp))
  | release l₁ l₂ path he hv =>
    rcases mem_update (.atRelease path) hv' with e | e
    · subst e; trivial
    · exact h1 v (hv ▸ e)
  | done l₁ l₂ path he hv =>
    apply h1 v
    rw [hv]
    simp only [List.mem_append, List.mem_cons] at hv' ⊢
    rcases hv' with e | e
    · exact Or.inl e
    · exact Or.inr (Or.inr e)

theorem keys_reach_step (env : Env) (roots : List GoString) (s s' : State) (h : Step env s s')
    (hv : ∀ v ∈ s.visitors, VisOK env roots v)
    (h1 : ∀ p ∈ mkeys s.deps, Reach env roots p) :
    ∀ p ∈ mkeys s'.deps, Reach env roots p := by
  intro p hp
  cases h with
  | claimNew l₁ l₂ path he hvis hg =>
    rcases (mem_mkeys_mset _ _ _ _).1 hp with e | e
    · subst e; exact hv (.atClaim p) (hvis ▸ mem_split_self _)
    · exact h1 p e
  | store l₁ l₂ path pkg he hvis =>
    rcases (mem_mkeys_mset _ _ _ _).1 hp with e | e
    · subst e; exact (hv (.atStore p pkg) (hvis ▸ mem_split_self _)).1
    · exact h1 p e
  | _ => exact h1 p hp

theorem launch_roots_step (env : Env) (roots : List GoString) (s s' : State)
    (h : Step env s s')
    (h1 : ∀ rest, s.main = .launch rest → ∀ r ∈ rest, r ∈ roots) :
    ∀ rest, s'.main = .launch rest → ∀ r ∈ rest, r ∈ roots := by
  intro rest' hm' r hr
  cases h with
  | launch root rest he hm =>
    simp only [MainPC.launch.injEq] at hm'
    subst hm'
    exact h1 _ hm r (List.mem_cons_of_mem _ hr)
  | wait he hm hw => cases hm'
  | report order he hm hp => cases hm'
  | _ => exact h1 rest' hm' r hr

theorem outputs_sub_deps (s : State)
    (ho : ∀ p, occ p (mkeys s.outputs) + total (preStore p) s.visitors = occ p (mkeys s.deps))
    (p : GoString) (hp : p ∈ mkeys s.outputs) : p ∈ mkeys s.deps := by
  have := ho p
  rw [← occ_pos_iff] at hp ⊢
  omega

theorem stored_step (env : Env) (roots : List GoString) (s s' : State) (h : Step env s s')
    (ho : ∀ p, occ p (mkeys s.outputs) + total (preStore p) s.visitors = occ p (mkeys s.deps))
    (hv : ∀ v ∈ s.visitors, VisOK env roots v)
    (h1 : ∀ p ∈ mkeys s.outputs, ∃ pkg, env.Import p = some pkg ∧
      mget s.outputs p = some (scanOutput env pkg p) ∧ mget s.deps p = some (scanFiles pkg)) :
    ∀ p ∈ mkeys s'.outputs, ∃ pkg, env.Import p = some pkg ∧
      mget s'.outputs p = some (scanOutput env pkg p) ∧
      mget s'.deps p = some (scanFiles pkg) := by
  intro p hp
  cases h with
  | claimNew l₁ l₂ path he hvis hg =>
    obtain ⟨pkg, h2, h3, h4⟩ := h1 p hp
    refine ⟨pkg, h2, h3, ?_⟩
    have hne : path ≠ p := by
      intro e
      subst e
      exact not_mem_of_mget_none hg (outputs_sub_deps s ho _ hp)
    simp only []
    rw [mget_mset, if_neg hne]
    exact h4
  | store l₁ l₂ path pkg he hvis =>
    simp only [] at hp ⊢
    by_cases e : path = p
    · subst e
      refine ⟨pkg, (hv (.atStore path pkg) (hvis ▸ mem_split_self _)).2, ?_, ?_⟩
      · rw [mget_mset, if_pos rfl]
      · rw [mget_mset, if_pos rfl]
    · have hp' : p ∈ mkeys s.outputs := by
        rcases (mem_mkeys_mset _ _ _ _).1 hp with e' | e'
        · exact absurd e'.symm e
        · exact e'
      obtain ⟨pkg', h2, h3, h4⟩ := h1 p hp'
      refine ⟨pkg', h2, ?_, ?_⟩
      · rw [mget_mset, if_neg e]; exact h3
      · rw [mget_mset, if_neg e]; exact h4
  | _ => exact h1 p hp

theorem InvB_init (env : Env) (roots : List GoString) : InvB env roots (init roots) where
  vis_ok := by simp [init]
  keys_reach := by simp [init, mkeys]
  launch_roots := by
    intro rest h r hr
    simp only [init, MainPC.launch.injEq] at h
    exact h ▸ hr
  stored := by simp [init, mkeys]
  roots_cov := fun r hr => Or.inr (Or.inr (Or.inr ⟨roots, rfl, hr⟩))
  imports_cov := by simp [init, mkeys]

theorem imports_cov_step (env : Env) (roots : List GoString) (s s' : State)
    (h : Step env s s')
    (hv : ∀ v ∈ s.visitors, VisOK env roots v)
    (h1 : ∀ p ∈ mkeys s.outputs, ∀ pkg, env.Import p = some pkg →
      ∀ q ∈ pkg.Imports, Covered s q) :
    ∀ p ∈ mkeys s'.outputs, ∀ pkg, env.Import p = some pkg →
      ∀ q ∈ pkg.Imports, Covered s' q := by
  intro p hp pkg hpkg q hq
  by_cases hold : p ∈ mkeys s.outputs
  · exact Covered_step env s s' h q (h1 p hold pkg hpkg q hq)
  · cases h with
    | store l₁ l₂ path pkg' he hvis =>
      simp only [] at hp
      rcases (mem_mkeys_mset _ _ _ _).1 hp with e | e
      · subst e
        have h2 := (hv (.atStore p pkg') (hvis ▸ mem_split_self _)).2
        rw [hpkg] at h2
        cases h2
        exact Or.inr (Or.inr (Or.inl ⟨p, pkg.Imports, by simp, hq⟩))
      · exact absurd e hold
    | _ => exact absurd hp hold

theorem InvB_step (env : Env) (roots : List GoString) (s s' : State)
    (h : Step env s s') (ha : InvA roots s) (hi : InvB env roots s) : InvB env roots s' where
  vis_ok := vis_ok_step env roots s s' h hi.launch_roots hi.vis_ok
  keys_reach := keys_reach_step env roots s s' h hi.vis_ok hi.keys_reach
  launch_roots := launch_roots_step env roots s s' h hi.launch_roots
  stored := stored_step env roots s s' h ha.outputs_eq hi.vis_ok hi.stored
  roots_cov := fun r hr => Covered_step env s s' h r (hi.roots_cov r hr)
  imports_cov := imports_cov_step env roots s s' h hi.vis_ok hi.imports_cov

theorem Inv_init (env : Env) (roots : List GoString) : Inv env roots (init roots) :=
  ⟨InvA_init roots, InvB_init env roots⟩

theorem Inv_step (env : Env) (roots : List GoString) (s s' : State) (a : Action)
    (h : step env s a = some s') (hi : Inv env roots s) : Inv env roots s' :=
  have hs := step_sound env s s' a h
  ⟨InvA_step env roots s s' hs hi.a, InvB_step env roots s s' hs hi.a hi.b⟩

theorem Inv_run (env : Env) (roots : List GoString) (sched : List Action) :
    ∀ (s s' : State), Inv env roots s → run env s sched = some s' → Inv env roots s' := by
  induction sched with
  | nil =>
    intro s s' hi h
    simp only [run, Option.some.injEq] at h
    exact h ▸ hi
  | cons a as ih =>
    intro s s' hi h
    simp only [run] at h
    cases hs : step env s a with
    | none => rw [hs] at h; cases h
    | some s₁ =>
      rw [hs] at h
      exact ih s₁ s' (Inv_step env roots s s₁ a hs hi) h

/-! ## The state after the barrier -/

theorem finished_main {s : State} (h : finished s = true) : ∀ rest, s.main ≠ .launch rest := by
  intro rest e
  simp [finished, e] at h

theorem finished_visitors {roots : List GoString} {s : State} (ha : InvA roots s)
    (h : finished s = true) : s.visitors = [] := ha.barrier (finished_main h)

theorem covered_finished {roots : List GoString} {s : State} (ha : InvA roots s)
    (h : finished s = true) (q : GoString) (hc : Covered s q) : q ∈ mkeys s.deps := by
  have hv := finished_visitors ha h
  rcases hc with hc | hc | ⟨p, rest, h1, _⟩ | ⟨rest, h1, _⟩
  · exact hc
  · rw [hv] at hc; cases hc
  · rw [hv] at h1; cases h1
  · exact absurd h1 (finished_main h rest)

theorem deps_sub_outputs_finished {roots : List GoString} {s : State} (ha : InvA roots s)
    (h : finished s = true) (p : GoString) (hp : p ∈ mkeys s.deps) : p ∈ mkeys s.outputs := by
  have h1 := ha.outputs_eq p
  rw [finished_visitors ha h] at h1
  simp only [total_nil] at h1
  rw [← occ_pos_iff] at hp ⊢
  omega

theorem reach_keys_finished {env : Env} {roots : List GoString} {s : State}
    (hi : Inv env roots s) (h : finished s = true) (p : GoString)
    (hp : Reach env roots p) : p ∈ mkeys s.deps := by
  induction hp with
  | root hr => exact covered_finished hi.a h _ (hi.b.roots_cov _ hr)
  | imp _ hpkg hq ih =>
    exact covered_finished hi.a h _
      (hi.b.imports_cov _ (deps_sub_outputs_finished hi.a h _ ih) _ hpkg _ hq)

theorem keys_iff_reach_finished {env : Env} {roots : List GoString} {s : State}
    (hi : Inv env roots s) (h : finished s = true) (p : GoString) :
    p ∈ mkeys s.deps ↔ Reach env roots p :=
  ⟨hi.b.keys_reach p, reach_keys_finished hi h p⟩

theorem entry_finished {env : Env} {roots : List GoString} {s : State}
    (hi : Inv env roots s) (h : finished s = true) (p : GoString)
    (hp : Reach env roots p) :
    ∃ pkg, env.Import p = some pkg ∧ mget s.deps p = some (scanFiles pkg) ∧
      mget s.outputs p = some (scanOutput env pkg p) := by
  obtain ⟨pkg, h1, h2, h3⟩ :=
    hi.b.stored p (deps_sub_outputs_finished hi.a h p (reach_keys_finished hi h p hp))
  exact ⟨pkg, h1, h3, h2⟩

theorem counts_finished {env : Env} {roots : List GoString} {s : State}
    (hi : Inv env roots s) (h : finished s = true) (p : GoString)
    (hp : Reach env roots p) :
    occ p s.claims = 1 ∧ occ p s.calls = 1 ∧ occ p (mkeys s.deps) = 1 := by
  have hk := (occ_pos_iff p _).2 (reach_keys_finished hi h p hp)
  have hle := occ_le_one_of_nodup hi.a.nodup_deps p
  have h1 := hi.a.claims_eq p
  have h2 := hi.a.calls_eq p
  rw [finished_visitors hi.a h] at h2
  simp only [total_nil] at h2
  omega

/-! ## Termination -/

theorem unclaimed_mono (env : Env) (keys keys' : List GoString)
    (h : ∀ q, q ∈ keys → q ∈ keys') (univ : List GoString) :
    unclaimed env keys' univ ≤ unclaimed env keys univ := by
  induction univ with
  | nil => simp [unclaimed]
  | cons p l ih =>
    simp only [unclaimed]
    by_cases h1 : p ∈ keys
    · simp only [h1, h p h1, if_true]
      omega
    · by_cases h2 : p ∈ keys'
      · simp only [h2, if_true]; omega
      · simp only [h1, h2, if_false]; omega

theorem unclaimed_claim (env : Env) (keys keys' : List GoString) (path : GoString)
    (h : ∀ q, q ∈ keys → q ∈ keys') (hp : path ∈ keys') (hn : path ∉ keys)
    (univ : List GoString) (hu : path ∈ univ) :
    unclaimed env keys' univ + weight env (.atAcquire path) ≤ unclaimed env keys univ := by
  induction univ with
  | nil => cases hu
  | cons p l ih =>
    simp only [unclaimed]
    by_cases e : p = path
    · subst e
      have := unclaimed_mono env keys keys' h l
      simp only [hp, hn, if_true, if_false]
      omega
    · have hl : path ∈ l := by
        simp only [List.mem_cons] at hu
        rcases hu with hu | hu
        · exact absurd hu.symm e
        · exact hu
      have := ih hl
      by_cases h1 : p ∈ keys
      · simp only [h1, h p h1, if_true]; omega
      · by_cases h2 : p ∈ keys'
        · simp only [h1, h2, if_true, if_false]; omega
        · simp only [h1, h2, if_false]; omega

theorem stepsLeft_step (env : Env) (roots univ : List GoString) (s s' : State)
    (h : Step env s s') (hv : ∀ v ∈ s.visitors, VisOK env roots v)
    (hu : ∀ p, Reach env roots p → p ∈ univ) :
    stepsLeft env univ s' < stepsLeft env univ s := by
  cases h with
  | launch root rest he hm =>
    simp only [stepsLeft, he, hm, mainWeight, total_append, total_cons, total_nil, weight,
      List.length_cons]
    omega
  | wait he hm hw =>
    simp only [stepsLeft, he, hm, mainWeight, List.length_nil]
    omega
  | report order he hm hp =>
    simp only [stepsLeft, he, hm, mainWeight]
    omega
  | claimOld l₁ l₂ path v he hvis hg =>
    simp only [stepsLeft, he, hvis, total_append, total_cons, weight]
    omega
  | claimNew l₁ l₂ path he hvis hg =>
    have hr : Reach env roots path := hv (.atClaim path) (hvis ▸ mem_split_self _)
    have := unclaimed_claim env (mkeys s.deps) (mkeys (mset s.deps path [])) path
      (fun q hq => (mem_mkeys_mset _ _ _ _).2 (Or.inr hq))
      ((mem_mkeys_mset _ _ _ _).2 (Or.inl rfl)) (not_mem_of_mget_none hg) univ (hu path hr)
    simp only [stepsLeft, he, hvis, total_append, total_cons] at this ⊢
    simp only [weight] at this ⊢
    omega
  | acquire l₁ l₂ path he hvis hfd =>
    simp only [stepsLeft, he, hvis, total_append, total_cons, weight]
    omega
  | importErr l₁ l₂ path he hvis hr =>
    simp only [stepsLeft, he, hvis, total_append, total_cons, weight]
    omega
  | importOk l₁ l₂ path pkg he hvis hr =>
    have hw : weight env (.atImport path) = 1 + (4 + 3 * pkg.Imports.length) := by
      simp only [weight, hr]
    have hw' : weight env (.atStore path pkg) = 4 + 3 * pkg.Imports.length := rfl
    simp only [stepsLeft, he, hvis, total_append, total_cons, hw, hw']
    omega
  | store l₁ l₂ path pkg he hvis =>
    have := unclaimed_mono env (mkeys s.deps) (mkeys (mset s.deps path (scanFiles pkg)))
      (fun q hq => (mem_mkeys_mset _ _ _ _).2 (Or.inr hq)) univ
    simp only [stepsLeft, he, hvis, total_append, total_cons, weight]
    refine Nat.add_lt_add_of_lt_of_le ?_ this
    omega
  | spawnEnd l₁ l₂ path he hvis =>
    simp only [stepsLeft, he, hvis, total_append, total_cons, weight, List.length_nil]
    omega
  | spawn l₁ l₂ path imp rest he hvis =>
    simp only [stepsLeft, he, hvis, total_append, total_cons, total_nil, weight,
      List.length_cons]
    omega
  | release l₁ l₂ path he hvis =>
    simp only [stepsLeft, he, hvis, total_append, total_cons, weight]
    omega
  | done l₁ l₂ path he hvis =>
    simp only [stepsLeft, he, hvis, total_append, total_cons, weight]
    omega

/-- No schedule is longer than the bound of its first state. -/
theorem run_length_le (env : Env) (roots univ : List GoString)
    (hu : ∀ p, Reach env roots p → p ∈ univ) (sched : List Action) :
    ∀ (s s' : State), Inv env roots s → run env s sched = some s' →
      sched.length + stepsLeft env univ s' ≤ stepsLeft env univ s := by
  induction sched with
  | nil =>
    intro s s' _ h
    simp only [run, Option.some.injEq] at h
    subst h
    simp
  | cons a as ih =>
    intro s s' hi h
    simp only [run] at h
    cases hs : step env s a with
    | none => rw [hs] at h; cases h
    | some s₁ =>
      rw [hs] at h
      have h1 := ih s₁ s' (Inv_step env roots s s₁ a hs hi) h
      have h2 := stepsLeft_step env roots univ s s₁ (step_sound env s s₁ a hs) hi.b.vis_ok hu
      simp only [List.length_cons]
      omega

/-! ## Absence of deadlock -/

theorem stepVisitor_ready (env : Env) (s : State) (i : Nat) (v : Visitor)
    (h : ready v = true) : ∃ s', stepVisitor env s i v = some s' := by
  cases v with
  | atClaim path =>
    simp only [stepVisitor]
    cases mget s.deps path <;> exact ⟨_, rfl⟩
  | atAcquire path => simp [ready] at h
  | atImport path =>
    simp only [stepVisitor]
    cases env.Import path <;> exact ⟨_, rfl⟩
  | atFatal path => simp [ready] at h
  | atStore path pkg => exact ⟨_, rfl⟩
  | atSpawn path rest => cases rest <;> exact ⟨_, rfl⟩
  | atRelease path => exact ⟨_, rfl⟩
  | atDone path => exact ⟨_, rfl⟩

theorem total_holds_zero (l : List Visitor)
    (h : ∀ v ∈ l, ready v = false) (hc : total crashed l = 0) : total holds l = 0 := by
  induction l with
  | nil => simp
  | cons x xs ih =>
    simp only [total_cons] at hc ⊢
    have hx := h x (by simp)
    have := ih (fun v hv => h v (by simp [hv])) (by omega)
    cases x <;> (simp [ready, holds, crashed] at hx hc ⊢; try omega)

/-- A process that has not exited can take a step. -/
theorem progress (env : Env) (roots : List GoString) (s : State) (hi : Inv env roots s)
    (he : s.exit = none) : ∃ a s', step env s a = some s' := by
  cases hm : s.main with
  | launch rest =>
    cases rest with
    | cons root rest => exact ⟨.launch, _, by simp only [step, he, hm]; rfl⟩
    | nil =>
      by_cases hr : ∃ v ∈ s.visitors, ready v = true
      · obtain ⟨v, hv, hrv⟩ := hr
        obtain ⟨i, hi'⟩ := List.getElem?_of_mem hv
        obtain ⟨s', hs'⟩ := stepVisitor_ready env s i v hrv
        exact ⟨.visit i, s', by simp only [step, he, hi', hs']⟩
      · have hall : ∀ v ∈ s.visitors, ready v = false := by
          intro v hv
          cases hrv : ready v with
          | false => rfl
          | true => exact absurd ⟨v, hv, hrv⟩ hr
        have hc : total crashed s.visitors = 0 := by
          have := hi.a.crashed_iff
          rw [he] at this
          simp only [reduceCtorEq, iff_false] at this
          omega
        have hfd : s.fdlimit = 0 := by
          rw [hi.a.fd_eq]; exact total_holds_zero _ hall hc
        cases hvis : s.visitors with
        | nil =>
          have hw : s.wg = 0 := by rw [hi.a.wg_eq, hvis]; rfl
          exact ⟨.wait, _, by simp only [step, he, hm, hw, if_true]; rfl⟩
        | cons v vs =>
          have hv0 := hall v (by simp [hvis])
          have hc0 : crashed v = 0 := by
            rw [hvis] at hc
            simp only [total_cons] at hc
            omega
          cases v with
          | atAcquire path =>
            exact ⟨.visit 0, _, by
              simp only [step, he, hvis, List.getElem?_cons_zero, stepVisitor, hfd, fdlimitCap]
              rfl⟩
          | atFatal path => simp [crashed] at hc0
          | _ => simp [ready] at hv0
  | report =>
    exact ⟨.report (mkeys s.deps), _, by
      simp only [step, he, hm, List.Perm.refl, if_true]; rfl⟩
  | returned =>
    have := hi.a.returned_iff.1 hm
    rw [he] at this
    cases this

/-! ## Completion of runs -/

theorem run_append (env : Env) (as bs : List Action) :
    ∀ (s s₁ : State), run env s as = some s₁ → run env s (as ++ bs) = run env s₁ bs := by
  induction as with
  | nil =>
    intro s s₁ h
    simp only [run, Option.some.injEq] at h
    subst h
    rfl
  | cons a as ih =>
    intro s s₁ h
    simp only [run, List.cons_append] at h ⊢
    cases hs : step env s a with
    | none => rw [hs] at h; cases h
    | some s₂ =>
      rw [hs] at h
      simp only [Option.bind] at h ⊢
      exact ih s₂ s₁ h

/-- Every run can be continued until the process exits. -/
theorem exists_completion (env : Env) (roots univ : List GoString)
    (hu : ∀ p, Reach env roots p → p ∈ univ) :
    ∀ (n : Nat) (s : State), stepsLeft env univ s ≤ n → Inv env roots s →
      ∃ sched s', run env s sched = some s' ∧ s'.exit ≠ none := by
  intro n
  induction n with
  | zero =>
    intro s hn hi
    cases he : s.exit with
    | some c => exact ⟨[], s, rfl, by simp [he]⟩
    | none =>
      obtain ⟨a, s₁, hs⟩ := progress env roots s hi he
      have := stepsLeft_step env roots univ s s₁ (step_sound env s s₁ a hs) hi.b.vis_ok hu
      omega
  | succ n ih =>
    intro s hn hi
    cases he : s.exit with
    | some c => exact ⟨[], s, rfl, by simp [he]⟩
    | none =>
      obtain ⟨a, s₁, hs⟩ := progress env roots s hi he
      have hlt := stepsLeft_step env roots univ s s₁ (step_sound env s s₁ a hs) hi.b.vis_ok hu
      obtain ⟨sched, s', hr, he'⟩ := ih s₁ (by omega) (Inv_step env roots s s₁ a hs hi)
      exact ⟨a :: sched, s', by simp only [run, hs, Option.bind, hr], he'⟩

/-- The three ways in which the process exits. -/
theorem exit_cases (env : Env) (roots : List GoString) (s : State) (hi : Inv env roots s)
    (c : Nat) (he : s.exit = some c) :
    (c = 0 ∧ s.main = .returned) ∨
    (c = 1 ∧ ∃ p, Reach env roots p ∧ env.Import p = none) ∨
    (c = 2 ∧ roots = []) := by
  rcases hi.a.exit_code c he with h | h | h
  · subst h; exact Or.inl ⟨rfl, hi.a.returned_iff.2 he⟩
  · subst h
    refine Or.inr (Or.inl ⟨rfl, ?_⟩)
    obtain ⟨v, hv, hc⟩ := exists_of_total_pos crashed s.visitors (hi.a.crashed_iff.2 he)
    have hok := hi.b.vis_ok v hv
    cases v <;> simp [crashed] at hc
    exact ⟨_, hok.1, hok.2⟩
  · subst h; exact Or.inr (Or.inr ⟨rfl, hi.a.usage_iff.1 he⟩)

/-- While some reachable package fails to resolve, the barrier is not passed. -/
theorem not_finished_of_failure (env : Env) (roots : List GoString) (s : State)
    (hi : Inv env roots s) (p : GoString) (hp : Reach env roots p)
    (hf : env.Import p = none) : finished s = false := by
  cases hfin : finished s with
  | false => rfl
  | true =>
    obtain ⟨pkg, h1, _⟩ := entry_finished hi hfin p hp
    rw [hf] at h1
    cases h1

theorem finished_of_returned {s : State} (h : s.main = .returned) : finished s = true := by
  simp [finished, h]

theorem spawned_step (env : Env) (s s' : State) (h : Step env s s') :
    s'.spawned ≤ s.spawned + 1 := by
  cases h <;> simp

theorem spawned_run (env : Env) (sched : List Action) :
    ∀ (s s' : State), run env s sched = some s' → s'.spawned ≤ s.spawned + sched.length := by
  induction sched with
  | nil =>
    intro s s' h
    simp only [run, Option.some.injEq] at h
    subst h
    simp
  | cons a as ih =>
    intro s s' h
    simp only [run] at h
    cases hs : step env s a with
    | none => rw [hs] at h; cases h
    | some s₁ =>
      rw [hs] at h
      have h1 := ih s₁ s' h
      have h2 := spawned_step env s s₁ (step_sound env s s₁ a hs)
      simp only [List.length_cons]
      omega

theorem reach_of_closedUnder (env : Env) (roots univ : List GoString)
    (h : closedUnder env roots univ = true) (p : GoString) (hp : Reach env roots p) :
    p ∈ univ ∧ env.Import p ≠ none := by
  simp only [closedUnder, Bool.and_eq_true, List.all_eq_true, decide_eq_true_eq] at h
  have hmem : p ∈ univ := by
    induction hp with
    | root hr => exact h.1 _ hr
    | imp _ hpkg hq ih =>
      have := h.2 _ ih
      rw [hpkg] at this
      simp only [List.all_eq_true, decide_eq_true_eq] at this
      exact this _ hq
  refine ⟨hmem, ?_⟩
  intro hn
  have := h.2 p hmem
  rw [hn] at this
  cases this

/-! ## The claims on the pure parts -/

/-- C3: the emitter writes one line per key of the ledger, in the increasing
byte-wise order of the identifiers: whatever the order in which the map yields
its keys, the lines are the rules of the keys in their one strictly increasing
enumeration. -/
theorem emitter_sorted_by_identifier (deps : List (GoString × List GoString))
    (outputs : List (GoString × GoString)) (order : List GoString)
    (hnd : (mkeys deps).Nodup) (hperm : order.Perm (mkeys deps)) :
    (sortStrings order).Perm (mkeys deps) ∧
    (sortStrings order).Pairwise (fun a b => strLess a b = true) ∧
    (∀ ids : List GoString, ids.Perm (mkeys deps) →
      ids.Pairwise (fun a b => strLess a b = true) →
      emitLines deps outputs order
        = ids.map (fun p => emitLine ((mget outputs p).getD []) ((mget deps p).getD []))) ∧
    (emitLines deps outputs order).length = (mkeys deps).length ∧
    emit deps outputs order = (emitLines deps outputs order).flatten := by
  have hp := (sortStrings_perm order).trans hperm
  refine ⟨hp, sortStrings_strict order (hperm.nodup_iff.2 hnd), ?_, ?_, ?_⟩
  · intro ids hids hsorted
    have hle : ids.Pairwise strLE := hsorted.imp (fun h => strLess_asymm _ _ h)
    have e : sortStrings order = ids :=
      @List.eq_of_perm_of_sorted _ strLE ⟨strLE_antisymm⟩ _ _ (hp.trans hids.symm)
        (sortStrings_sorted order) hle
    simp only [emitLines, e]
    rfl
  · simp only [emitLines, List.length_map]
    exact hp.length_eq
  · simp only [emit, foldl_append_eq, List.nil_append]

/-- C3, on the ledger of "zeta", "alpha", "mid": the lines come in the order
alpha, mid, zeta, which is not the order of the artifact paths. -/
theorem emitter_sorted_by_identifier_witness :
    emitLines threeDeps threeOutputs [ascii "zeta", ascii "alpha", ascii "mid"]
      = [ascii "3.a:\n", ascii "2.a:\n", ascii "1.a:\n"] ∧
    (sortStrings [ascii "zeta", ascii "alpha", ascii "mid"]).Perm (mkeys threeDeps) ∧
    (sortStrings [ascii "zeta", ascii "alpha", ascii "mid"]).Pairwise
      (fun a b => strLess a b = true) :=
  have h := emitter_sorted_by_identifier threeDeps threeOutputs
    [ascii "zeta", ascii "alpha", ascii "mid"] (by decide) (by decide)
  ⟨by decide, h.1, h.2.1⟩

/-- C4: a rule is the artifact path, a colon, every dependency in list order
preceded by one space, and a newline; without dependencies it is the path, the
colon and the newline, and the newline follows the last dependency directly. -/
theorem emitLine_format (o : GoString) (ds : List GoString) :
    emitLine o ds
      = o ++ ascii ":" ++ (ds.map (fun d => ascii " " ++ d)).flatten ++ ascii "\n" ∧
    emitLine o [] = o ++ ascii ":" ++ ascii "\n" ∧
    (∀ (front : List GoString) (last : GoString),
      emitLine o (front ++ [last])
        = o ++ ascii ":" ++ (front.map (fun d => ascii " " ++ d)).flatten
            ++ ascii " " ++ last ++ ascii "\n") ∧
    ascii ":" = [58] ∧ ascii " " = [32] ∧ ascii "\n" = [10] := by
  have e1 : ascii ":" = [58] := by decide
  have e2 : ascii " " = [32] := by decide
  have e3 : ascii "\n" = [10] := by decide
  refine ⟨?_, ?_, ?_, e1, e2, e3⟩
  · rw [emitLine_eq, e1, e2, e3]; simp
  · rw [emitLine_eq, e1, e3]; simp
  · intro front last
    rw [emitLine_eq, e1, e2, e3]; simp

/-- C5: a program built for the host goes to `Root/bin/path`; a program built
for another OS or architecture goes to `Root/bin/GOOS_GOARCH/path`; a library
goes to the object path reported by the resolver. -/
theorem scanOutput_spec (env : Env) (pkg : Package) (path : GoString) :
    (pkg.Name = ascii "main" → env.GOOS = env.hostGOOS → env.GOARCH = env.hostGOARCH →
      scanOutput env pkg path = pkg.Root ++ ascii "/bin/" ++ path) ∧
    (pkg.Name = ascii "main" → (env.GOOS ≠ env.hostGOOS ∨ env.GOARCH ≠ env.hostGOARCH) →
      scanOutput env pkg path
        = pkg.Root ++ ascii "/bin/" ++ env.GOOS ++ ascii "_" ++ env.GOARCH ++ ascii "/"
            ++ path) ∧
    (pkg.Name ≠ ascii "main" → scanOutput env pkg path = pkg.PkgObj) := by
  refine ⟨?_, ?_, ?_⟩
  · intro h1 h2 h3
    simp [scanOutput, h1, h2, h3]
  · intro h1 h2
    have h3 : ¬ (env.GOOS = env.hostGOOS ∧ env.GOARCH = env.hostGOARCH) := by
      rintro ⟨a, b⟩
      rcases h2 with h2 | h2
      · exact h2 a
      · exact h2 b
    simp only [scanOutput, h1, h3, if_true, if_false]
  · intro h1
    simp only [scanOutput, h1, if_false]

/-- C5, on a program `p` under `/go`: `/go/bin/p` for the host,
`/go/bin/linux_arm64/p` for `linux/arm64`; and a library. -/
theorem scanOutput_spec_witness :
    scanOutput (hostEnv fun _ => none) progPkg (ascii "p") = ascii "/go/bin/p" ∧
    scanOutput (crossEnv fun _ => none) progPkg (ascii "p") = ascii "/go/bin/linux_arm64/p" ∧
    scanOutput (crossEnv fun _ => none) nestedPkg (ascii "a/b")
      = ascii "/go/pkg/linux_amd64/a/b.a" :=
  ⟨((scanOutput_spec (hostEnv fun _ => none) progPkg (ascii "p")).1
      (by decide) (by decide) (by decide)).trans (by decide),
   ((scanOutput_spec (crossEnv fun _ => none) progPkg (ascii "p")).2.1
      (by decide) (Or.inr (by decide))).trans (by decide),
   ((scanOutput_spec (crossEnv fun _ => none) nestedPkg (ascii "a/b")).2.2
      (by decide)).trans (by decide)⟩

/-- The file list is the concatenation of the eight categories in the order of
the source, every name prefixed with `Root ++ "/src/"`. -/
theorem scanFiles_eq (pkg : Package) :
    scanFiles pkg = (pkg.GoFiles ++ pkg.CgoFiles ++ pkg.CFiles ++ pkg.CXXFiles ++ pkg.HFiles
      ++ pkg.SFiles ++ pkg.SwigFiles ++ pkg.SwigCXXFiles).map
        (fun f => pkg.Root ++ ascii "/src/" ++ f) := by
  simp only [scanFiles, appendAndPrefix_eq, List.map_append, List.nil_append,
    List.append_assoc]

/-- C6, at the package `a/b` of `/go`: the code prefixes the file with
`/go/src/`, which is not the directory `/go/src/a/b` that holds the sources,
so the entry is not the path of the file. -/
theorem scanFiles_nested_prefix :
    nestedPkg.Dir = ascii "/go/src/a/b" ∧
    scanFiles nestedPkg = [ascii "/go/src/x.go"] ∧
    scanFiles nestedPkg ≠ nestedPkg.GoFiles.map (fun f => nestedPkg.Dir ++ ascii "/" ++ f) := by
  decide

/-! ## Reaching the failing package -/

theorem KeepsOthers.trans {j : Nat} {s s₁ s₂ : State} (h₁ : KeepsOthers j s s₁)
    (h₂ : KeepsOthers j s₁ s₂) : KeepsOthers j s s₂ :=
  fun i v hij h => h₂ i v hij (h₁ i v hij h)

theorem getElem?_set_append_other {l : List Visitor} {i j : Nat} {w v : Visitor}
    (z : List Visitor) (hij : i ≠ j) (h : l[i]? = some v) : (l.set j w ++ z)[i]? = some v := by
  have hlt : i < (l.set j w).length := by
    rw [List.length_set]; exact (List.getElem?_eq_some.1 h).1
  rw [List.getElem?_append_left hlt, List.getElem?_set_ne (Ne.symm hij)]
  exact h

theorem getElem?_set_append_self {l : List Visitor} {j : Nat} {w v : Visitor}
    (z : List Visitor) (h : l[j]? = some v) : (l.set j w ++ z)[j]? = some w := by
  have hlt : j < l.length := (List.getElem?_eq_some.1 h).1
  have hlt' : j < (l.set j w).length := by rw [List.length_set]; exact hlt
  rw [List.getElem?_append_left hlt', List.getElem?_set_self hlt]

theorem getElem?_set_other {l : List Visitor} {i j : Nat} {w v : Visitor}
    (hij : i ≠ j) (h : l[i]? = some v) : (l.set j w)[i]? = some v := by
  rw [List.getElem?_set_ne (Ne.symm hij)]
  exact h

theorem getElem?_set_same {l : List Visitor} {j : Nat} {w v : Visitor}
    (h : l[j]? = some v) : (l.set j w)[j]? = some w :=
  List.getElem?_set_self (List.getElem?_eq_some.1 h).1

theorem step_visit (env : Env) (s s' : State) (i : Nat) (v : Visitor)
    (he : s.exit = none) (hv : s.visitors[i]? = some v)
    (h : stepVisitor env s i v = some s') : step env s (.visit i) = some s' := by
  simp only [step, he, hv, h]

theorem run_cons (env : Env) (s s₁ : State) (a : Action) (as : List Action)
    (h : step env s a = some s₁) : run env s (a :: as) = run env s₁ as := by
  simp only [run, h, Option.bind]

theorem drive_release (env : Env) (roots : List GoString) (s : State)
    (hi : Inv env roots s) (he : s.exit = none) (j : Nat) (p : GoString)
    (hv : s.visitors[j]? = some (.atRelease p)) :
    ∃ sched s', run env s sched = some s' ∧ s'.exit = none ∧
      s'.fdlimit + 1 = s.fdlimit ∧ KeepsOthers j s s' := by
  have hpos : 0 < s.fdlimit := by
    rw [hi.a.fd_eq]
    exact total_pos_of_mem holds _ _ (List.getElem?_mem hv) (by simp [holds])
  have hs := step_visit env s _ j _ he hv rfl
  refine ⟨[.visit j], _, (run_cons env s _ _ [] hs).trans rfl, he, ?_, ?_⟩
  · show s.fdlimit - 1 + 1 = s.fdlimit
    omega
  · intro i v hij h
    exact getElem?_set_other hij h

theorem drive_spawn (env : Env) (roots : List GoString) (j : Nat) (p : GoString) :
    ∀ (rest : List GoString) (s : State), Inv env roots s → s.exit = none →
      s.visitors[j]? = some (.atSpawn p rest) →
      ∃ sched s', run env s sched = some s' ∧ s'.exit = none ∧
        s'.fdlimit + 1 = s.fdlimit ∧ KeepsOthers j s s' := by
  intro rest
  induction rest with
  | nil =>
    intro s hi he hv
    have hs := step_visit env s _ j _ he hv rfl
    have hi₁ := Inv_step env roots s _ _ hs hi
    obtain ⟨sched, s', hr, he', hfd, hk⟩ :=
      drive_release env roots _ hi₁ he j p (getElem?_set_same hv)
    refine ⟨.visit j :: sched, s', (run_cons env s _ _ sched hs).trans hr, he', hfd, ?_⟩
    exact KeepsOthers.trans (fun i v hij h => getElem?_set_other hij h) hk
  | cons imp rest ih =>
    intro s hi he hv
    have hs := step_visit env s _ j _ he hv rfl
    have hi₁ := Inv_step env roots s _ _ hs hi
    obtain ⟨sched, s', hr, he', hfd, hk⟩ :=
      ih _ hi₁ he (getElem?_set_append_self _ hv)
    refine ⟨.visit j :: sched, s', (run_cons env s _ _ sched hs).trans hr, he', hfd, ?_⟩
    exact KeepsOthers.trans (fun i v hij h => getElem?_set_append_other _ hij h) hk

theorem drive_store (env : Env) (roots : List GoString) (s : State)
    (hi : Inv env roots s) (he : s.exit = none) (j : Nat) (p : GoString) (pkg : Package)
    (hv : s.visitors[j]? = some (.atStore p pkg)) :
    ∃ sched s', run env s sched = some s' ∧ s'.exit = none ∧
      s'.fdlimit + 1 = s.fdlimit ∧ KeepsOthers j s s' := by
  have hs := step_visit env s _ j _ he hv rfl
  have hi₁ := Inv_step env roots s _ _ hs hi
  obtain ⟨sched, s', hr, he', hfd, hk⟩ :=
    drive_spawn env roots j p pkg.Imports _ hi₁ he (getElem?_set_same hv)
  refine ⟨.visit j :: sched, s', (run_cons env s _ _ sched hs).trans hr, he', hfd, ?_⟩
  exact KeepsOthers.trans (fun i v hij h => getElem?_set_other hij h) hk

theorem drive_import (env : Env) (roots : List GoString) (s : State)
    (hi : Inv env roots s) (he : s.exit = none) (j : Nat) (p : GoString)
    (hv : s.visitors[j]? = some (.atImport p)) :
    ∃ sched s', run env s sched = some s' ∧
      (s'.exit ≠ none ∨
        (s'.exit = none ∧ s'.fdlimit + 1 = s.fdlimit ∧ KeepsOthers j s s')) := by
  cases hr : env.Import p with
  | none =>
    have hs : step env s (.visit j) = some _ :=
      step_visit env s _ j _ he hv (by simp only [stepVisitor, hr]; rfl)
    exact ⟨[.visit j], _, (run_cons env s _ _ [] hs).trans rfl, Or.inl (by simp)⟩
  | some pkg =>
    have hs : step env s (.visit j) = some _ :=
      step_visit env s _ j _ he hv (by simp only [stepVisitor, hr]; rfl)
    have hi₁ := Inv_step env roots s _ _ hs hi
    obtain ⟨sched, s', hr', he', hfd, hk⟩ :=
      drive_store env roots _ hi₁ he j p pkg (getElem?_set_same hv)
    refine ⟨.visit j :: sched, s', (run_cons env s _ _ sched hs).trans hr',
      Or.inr ⟨he', hfd, ?_⟩⟩
    exact KeepsOthers.trans (fun i v hij h => getElem?_set_other hij h) hk

/-- A visitor waiting at the send on `fdlimit` can be given a free slot, unless
the process exits first. -/
theorem free_slot (env : Env) (roots : List GoString) (s : State)
    (hi : Inv env roots s) (he : s.exit = none) (i : Nat) (q : GoString)
    (hv : s.visitors[i]? = some (.atAcquire q)) :
    ∃ sched s', run env s sched = some s' ∧
      (s'.exit ≠ none ∨
        (s'.exit = none ∧ s'.fdlimit < fdlimitCap ∧
          s'.visitors[i]? = some (.atAcquire q))) := by
  by_cases hfd : s.fdlimit < fdlimitCap
  · exact ⟨[], s, rfl, Or.inr ⟨he, hfd, hv⟩⟩
  · have hle := hi.a.fd_le
    have hpos : 0 < total holds s.visitors := by
      rw [← hi.a.fd_eq]
      simp only [fdlimitCap] at hfd ⊢
      omega
    obtain ⟨v, hmem, hh⟩ := exists_of_total_pos holds _ hpos
    obtain ⟨j, hj⟩ := List.getElem?_of_mem hmem
    have hc : total crashed s.visitors = 0 := by
      have := hi.a.crashed_iff
      rw [he] at this
      simp only [reduceCtorEq, iff_false] at this
      omega
    have hij : i ≠ j := by
      intro e
      subst e
      rw [hv] at hj
      cases hj
      simp [holds] at hh
    have key : ∃ sched s', run env s sched = some s' ∧
        (s'.exit ≠ none ∨
          (s'.exit = none ∧ s'.fdlimit + 1 = s.fdlimit ∧ KeepsOthers j s s')) := by
      cases v with
      | atClaim p => simp [holds] at hh
      | atAcquire p => simp [holds] at hh
      | atDone p => simp [holds] at hh
      | atFatal p =>
        have := total_pos_of_mem crashed _ _ hmem (by simp [crashed])
        omega
      | atImport p => exact drive_import env roots s hi he j p hj
      | atStore p pkg =>
        obtain ⟨sched, s', h1, h2, h3, h4⟩ := drive_store env roots s hi he j p pkg hj
        exact ⟨sched, s', h1, Or.inr ⟨h2, h3, h4⟩⟩
      | atSpawn p rest =>
        obtain ⟨sched, s', h1, h2, h3, h4⟩ := drive_spawn env roots j p rest s hi he hj
        exact ⟨sched, s', h1, Or.inr ⟨h2, h3, h4⟩⟩
      | atRelease p =>
        obtain ⟨sched, s', h1, h2, h3, h4⟩ := drive_release env roots s hi he j p hj
        exact ⟨sched, s', h1, Or.inr ⟨h2, h3, h4⟩⟩
    obtain ⟨sched, s', h1, h2⟩ := key
    refine ⟨sched, s', h1, ?_⟩
    rcases h2 with h2 | ⟨h2, h3, h4⟩
    · exact Or.inl h2
    · refine Or.inr ⟨h2, ?_, h4 i _ hij hv⟩
      simp only [fdlimitCap] at hle ⊢
      omega

theorem settle_store (env : Env) (roots : List GoString) (s : State)
    (_hi : Inv env roots s) (he : s.exit = none) (i : Nat) (q : GoString) (pkg : Package)
    (hv : s.visitors[i]? = some (.atStore q pkg)) :
    ∃ sched s', run env s sched = some s' ∧ Settled q s' := by
  have hs := step_visit env s _ i _ he hv rfl
  refine ⟨[.visit i], _, (run_cons env s _ _ [] hs).trans rfl, Or.inr ?_⟩
  exact (mem_mkeys_mset _ _ _ _).2 (Or.inl rfl)

theorem settle_import (env : Env) (roots : List GoString) (s : State)
    (hi : Inv env roots s) (he : s.exit = none) (i : Nat) (q : GoString)
    (hv : s.visitors[i]? = some (.atImport q)) :
    ∃ sched s', run env s sched = some s' ∧ Settled q s' := by
  cases hr : env.Import q with
  | none =>
    have hs : step env s (.visit i) = some _ :=
      step_visit env s _ i _ he hv (by simp only [stepVisitor, hr]; rfl)
    exact ⟨[.visit i], _, (run_cons env s _ _ [] hs).trans rfl, Or.inl (by simp)⟩
  | some pkg =>
    have hs : step env s (.visit i) = some _ :=
      step_visit env s _ i _ he hv (by simp only [stepVisitor, hr]; rfl)
    have hi₁ := Inv_step env roots s _ _ hs hi
    obtain ⟨sched, s', hr', hg⟩ :=
      settle_store env roots _ hi₁ he i q pkg (getElem?_set_same hv)
    exact ⟨.visit i :: sched, s', (run_cons env s _ _ sched hs).trans hr', hg⟩

theorem settle_acquire (env : Env) (roots : List GoString) (s : State)
    (hi : Inv env roots s) (he : s.exit = none) (i : Nat) (q : GoString)
    (hv : s.visitors[i]? = some (.atAcquire q)) :
    ∃ sched s', run env s sched = some s' ∧ Settled q s' := by
  obtain ⟨sched₁, s₁, hr₁, h₁⟩ := free_slot env roots s hi he i q hv
  rcases h₁ with h₁ | ⟨he₁, hfd, hv₁⟩
  · exact ⟨sched₁, s₁, hr₁, Or.inl h₁⟩
  · have hi₁ := Inv_run env roots sched₁ s s₁ hi hr₁
    have hs : step env s₁ (.visit i) = some _ :=
      step_visit env s₁ _ i _ he₁ hv₁ (by simp only [stepVisitor, hfd, if_true]; rfl)
    have hi₂ := Inv_step env roots s₁ _ _ hs hi₁
    obtain ⟨sched₂, s₂, hr₂, hg⟩ :=
      settle_import env roots _ hi₂ he₁ i q (getElem?_set_same hv₁)
    refine ⟨sched₁ ++ .visit i :: sched₂, s₂, ?_, hg⟩
    rw [run_append env sched₁ _ s s₁ hr₁]
    exact (run_cons env s₁ _ _ sched₂ hs).trans hr₂

theorem settle_claimed (env : Env) (roots : List GoString) (s : State)
    (hi : Inv env roots s) (he : s.exit = none) (q : GoString) (hq : q ∈ mkeys s.deps) :
    ∃ sched s', run env s sched = some s' ∧ Settled q s' := by
  by_cases ho : q ∈ mkeys s.outputs
  · exact ⟨[], s, rfl, Or.inr ho⟩
  · have h1 := hi.a.outputs_eq q
    have h2 := (occ_eq_zero_iff q _).2 ho
    have h3 := (occ_pos_iff q _).2 hq
    obtain ⟨v, hmem, hv⟩ := exists_of_total_pos (preStore q) s.visitors (by omega)
    obtain ⟨i, hi'⟩ := List.getElem?_of_mem hmem
    have hc : total crashed s.visitors = 0 := by
      have := hi.a.crashed_iff
      rw [he] at this
      simp only [reduceCtorEq, iff_false] at this
      omega
    cases v with
    | atAcquire p =>
      have e : p = q := by
        by_contra hne
        simp [preStore, hne] at hv
      subst e
      exact settle_acquire env roots s hi he i p hi'
    | atImport p =>
      have e : p = q := by
        by_contra hne
        simp [preStore, hne] at hv
      subst e
      exact settle_import env roots s hi he i p hi'
    | atStore p pkg =>
      have e : p = q := by
        by_contra hne
        simp [preStore, hne] at hv
      subst e
      exact settle_store env roots s hi he i p pkg hi'
    | atFatal p =>
      have := total_pos_of_mem crashed _ _ hmem (by simp [crashed])
      omega
    | atClaim p => simp [preStore] at hv
    | atSpawn p rest => simp [preStore] at hv
    | atRelease p => simp [preStore] at hv
    | atDone p => simp [preStore] at hv

theorem settle_claim (env : Env) (roots : List GoString) (s : State)
    (hi : Inv env roots s) (he : s.exit = none) (i : Nat) (q : GoString)
    (hv : s.visitors[i]? = some (.atClaim q)) :
    ∃ sched s', run env s sched = some s' ∧ Settled q s' := by
  cases hg : mget s.deps q with
  | some entry =>
    exact settle_claimed env roots s hi he q (mem_of_mget_some hg)
  | none =>
    have hs : step env s (.visit i) = some _ :=
      step_visit env s _ i _ he hv (by simp only [stepVisitor, hg]; rfl)
    have hi₁ := Inv_step env roots s _ _ hs hi
    obtain ⟨sched, s', hr, hgoal⟩ :=
      settle_claimed env roots _ hi₁ he q ((mem_mkeys_mset _ _ _ _).2 (Or.inl rfl))
    exact ⟨.visit i :: sched, s', (run_cons env s _ _ sched hs).trans hr, hgoal⟩

theorem settle_spawn (env : Env) (roots : List GoString) (i : Nat) (p q : GoString) :
    ∀ (rest : List GoString) (s : State), Inv env roots s → s.exit = none →
      s.visitors[i]? = some (.atSpawn p rest) → q ∈ rest →
      ∃ sched s', run env s sched = some s' ∧ Settled q s' := by
  intro rest
  induction rest with
  | nil => intro s _ _ _ hq; cases hq
  | cons imp rest ih =>
    intro s hi he hv hq
    have hs := step_visit env s _ i _ he hv rfl
    have hi₁ := Inv_step env roots s _ _ hs hi
    simp only [List.mem_cons] at hq
    rcases hq with hq | hq
    · subst hq
      have hlast : (s.visitors.set i (.atSpawn p rest) ++ [.atClaim q])[
          (s.visitors.set i (.atSpawn p rest)).length]? = some (.atClaim q) :=
        List.getElem?_concat_length _ _
      obtain ⟨sched, s', hr, hg⟩ := settle_claim env roots _ hi₁ he _ q hlast
      exact ⟨.visit i :: sched, s', (run_cons env s _ _ sched hs).trans hr, hg⟩
    · obtain ⟨sched, s', hr, hg⟩ := ih _ hi₁ he (getElem?_set_append_self _ hv) hq
      exact ⟨.visit i :: sched, s', (run_cons env s _ _ sched hs).trans hr, hg⟩

theorem settle_launch (env : Env) (roots : List GoString) (q : GoString) :
    ∀ (rest : List GoString) (s : State), Inv env roots s → s.exit = none →
      s.main = .launch rest → q ∈ rest →
      ∃ sched s', run env s sched = some s' ∧ Settled q s' := by
  intro rest
  induction rest with
  | nil => intro s _ _ _ hq; cases hq
  | cons root rest ih =>
    intro s hi he hm hq
    have hs : step env s .launch = some { s with
        wg := s.wg + 1, visitors := s.visitors ++ [.atClaim root], main := .launch rest,
        spawned := s.spawned + 1 } := by
      simp only [step, he, hm]
    have hi₁ := Inv_step env roots s _ _ hs hi
    simp only [List.mem_cons] at hq
    rcases hq with hq | hq
    · subst hq
      obtain ⟨sched, s', hr, hg⟩ :=
        settle_claim env roots _ hi₁ he _ q (List.getElem?_concat_length s.visitors _)
      exact ⟨.launch :: sched, s', (run_cons env s _ _ sched hs).trans hr, hg⟩
    · obtain ⟨sched, s', hr, hg⟩ := ih _ hi₁ he rfl hq
      exact ⟨.launch :: sched, s', (run_cons env s _ _ sched hs).trans hr, hg⟩

theorem settle_covered (env : Env) (roots : List GoString) (s : State)
    (hi : Inv env roots s) (q : GoString) (hc : Covered s q) :
    ∃ sched s', run env s sched = some s' ∧ Settled q s' := by
  cases he : s.exit with
  | some c => exact ⟨[], s, rfl, Or.inl (by simp [he])⟩
  | none =>
    rcases hc with hc | hc | ⟨p, rest, h1, h2⟩ | ⟨rest, h1, h2⟩
    · exact settle_claimed env roots s hi he q hc
    · obtain ⟨i, hi'⟩ := List.getElem?_of_mem hc
      exact settle_claim env roots s hi he i q hi'
    · obtain ⟨i, hi'⟩ := List.getElem?_of_mem h1
      exact settle_spawn env roots i p q rest s hi he hi' h2
    · exact settle_launch env roots q rest s hi he h1 h2

/-- Every reachable package can be brought to its stored entry, unless the
process exits first. -/
theorem settle_reach (env : Env) (roots : List GoString) (q : GoString)
    (hq : Reach env roots q) :
    ∀ s, Inv env roots s → ∃ sched s', run env s sched = some s' ∧ Settled q s' := by
  induction hq with
  | root hr => exact fun s hi => settle_covered env roots s hi _ (hi.b.roots_cov _ hr)
  | @imp p q pkg _ hpkg hmem ih =>
    intro s hi
    obtain ⟨sched₁, s₁, hr₁, hg₁⟩ := ih s hi
    have hi₁ := Inv_run env roots sched₁ s s₁ hi hr₁
    rcases hg₁ with hg₁ | hg₁
    · exact ⟨sched₁, s₁, hr₁, Or.inl hg₁⟩
    · obtain ⟨sched₂, s₂, hr₂, hg₂⟩ :=
        settle_covered env roots s₁ hi₁ q (hi₁.b.imports_cov p hg₁ pkg hpkg q hmem)
      exact ⟨sched₁ ++ sched₂, s₂, (run_append env sched₁ sched₂ s s₁ hr₁).trans hr₂, hg₂⟩

/-- A reachable package that fails to resolve can always be reached: every
run can be continued to the exit of `log.Fatalf`. -/
theorem exists_failure (env : Env) (roots : List GoString) (hroots : roots ≠ [])
    (p : GoString) (hp : Reach env roots p) (hf : env.Import p = none)
    (s : State) (hi : Inv env roots s) :
    ∃ sched s', run env s sched = some s' ∧ s'.exit = some 1 := by
  obtain ⟨sched, s', hr, hg⟩ := settle_reach env roots p hp s hi
  have hi' := Inv_run env roots sched s s' hi hr
  have hne : s'.exit ≠ none := by
    rcases hg with hg | hg
    · exact hg
    · obtain ⟨pkg, h1, _⟩ := hi'.b.stored p hg
      rw [hf] at h1
      cases h1
  cases hc : s'.exit with
  | none => exact absurd hc hne
  | some c =>
    rcases exit_cases env roots s' hi' c hc with ⟨_, hm⟩ | ⟨h1, _⟩ | ⟨_, hn⟩
    · have := not_finished_of_failure env roots s' hi' p hp hf
      rw [finished_of_returned hm] at this
      cases this
    · exact ⟨sched, s', hr, h1 ▸ hc⟩
    · exact absurd hn hroots

/-! ## The claims on the traversal -/

theorem Inv_reachable (env : Env) (roots : List GoString) (sched : List Action) (s : State)
    (h : run env (init roots) sched = some s) : Inv env roots s :=
  Inv_run env roots sched (init roots) s (Inv_init env roots) h

theorem step_exited (env : Env) (s : State) (c : Nat) (he : s.exit = some c) (a : Action) :
    step env s a = none := by
  cases a <;> simp [step, he]

/-- Without failing package, every run can be continued until `main` returns. -/
theorem exists_success (env : Env) (roots univ : List GoString) (hroots : roots ≠ [])
    (hfin : ∀ p, Reach env roots p → p ∈ univ)
    (hok : ∀ p, Reach env roots p → env.Import p ≠ none)
    (s : State) (hi : Inv env roots s) :
    ∃ sched s', run env s sched = some s' ∧ s'.exit = some 0 ∧ finished s' = true := by
  obtain ⟨sched, s', hr, he⟩ := exists_completion env roots univ hfin _ s (Nat.le_refl _) hi
  have hi' := Inv_run env roots sched s s' hi hr
  cases hc : s'.exit with
  | none => exact absurd hc he
  | some c =>
    rcases exit_cases env roots s' hi' c hc with ⟨h0, hm⟩ | ⟨_, p, hp, hf⟩ | ⟨_, hn⟩
    · exact ⟨sched, s', hr, h0 ▸ hc, finished_of_returned hm⟩
    · exact absurd hf (hok p hp)
    · exact absurd hn hroots

/-- C1: for a resolver with a finite reachable graph and no failing reachable
package, and non-empty roots, the traversal can always be brought to its end,
and when it has finished the keys of `deps` are exactly the reachable
identifiers, each with the file list and the artifact path computed from its
own resolver result. -/
theorem ledger_is_reachable_closure (env : Env) (roots univ : List GoString)
    (hroots : roots ≠ [])
    (hfin : ∀ p, Reach env roots p → p ∈ univ)
    (hok : ∀ p, Reach env roots p → env.Import p ≠ none) :
    (∃ sched s, run env (init roots) sched = some s ∧ finished s = true) ∧
    ∀ sched s, run env (init roots) sched = some s → finished s = true →
      (∀ p, p ∈ mkeys s.deps ↔ Reach env roots p) ∧
      (∀ p, Reach env roots p →
        ∃ pkg, env.Import p = some pkg ∧ mget s.deps p = some (scanFiles pkg) ∧
          mget s.outputs p = some (scanOutput env pkg p)) := by
  constructor
  · obtain ⟨sched, s, hr, _, hf⟩ :=
      exists_success env roots univ hroots hfin hok (init roots) (Inv_init env roots)
    exact ⟨sched, s, hr, hf⟩
  · intro sched s hr hf
    have hi := Inv_reachable env roots sched s hr
    exact ⟨keys_iff_reach_finished hi hf, entry_finished hi hf⟩

/-- C1 on the diamond: the ledger holds `r`, `a`, `b`, `c`. -/
theorem ledger_is_reachable_closure_witness :
    run diamondEnv (init [ascii "r"]) diamondSchedule = some diamondEnd ∧
    finished diamondEnd = true ∧
    mkeys diamondEnd.deps = [ascii "r", ascii "a", ascii "b", ascii "c"] ∧
    (∀ p, p ∈ mkeys diamondEnd.deps ↔ Reach diamondEnv [ascii "r"] p) :=
  have hc := reach_of_closedUnder diamondEnv [ascii "r"] diamondUniv (by decide)
  ⟨by decide, by decide, by decide,
    ((ledger_is_reachable_closure diamondEnv [ascii "r"] diamondUniv (by decide)
      (fun p hp => (hc p hp).1) (fun p hp => (hc p hp).2)).2
        diamondSchedule diamondEnd (by decide) (by decide)).1⟩

theorem total_preCall_le (p : GoString) (l : List Visitor) :
    total (preCall p) l ≤ total (preStore p) l := by
  induction l with
  | nil => simp
  | cons v vs ih =>
    simp only [total_cons]
    cases v <;> simp only [preCall, preStore] <;> omega

/-- C2 as stated fails on a run that aborts: with `r` importing `a` and the
failing `x`, the visitor of `x` reaches `log.Fatalf` before the visitor of `a`
has run its claim step; the process has exited with status 1, no step is left,
and the reachable `a` has been claimed zero times, resolved zero times and has
no entry in the ledger. -/
theorem resolved_once_in_every_run_counterexample :
    Reach failEnv [ascii "r"] (ascii "a") ∧
    run failEnv (init [ascii "r"]) abortSchedule = some abortEnd ∧
    abortEnd.exit = some 1 ∧ (∀ a, step failEnv abortEnd a = none) ∧
    abortEnd.visitors
      = [.atSpawn (ascii "r") [], .atClaim (ascii "a"), .atFatal (ascii "x")] ∧
    occ (ascii "a") abortEnd.claims = 0 ∧ occ (ascii "a") abortEnd.calls = 0 ∧
    occ (ascii "a") (mkeys abortEnd.deps) = 0 ∧ mget abortEnd.deps (ascii "a") = none := by
  have hr : Reach failEnv [ascii "r"] (ascii "r") := Reach.root (by decide)
  have ha : Reach failEnv [ascii "r"] (ascii "a") :=
    @Reach.imp _ _ (ascii "r") (ascii "a") (libPkg (ascii "r") [ascii "a", ascii "x"]) hr
      (by decide) (by decide)
  exact ⟨ha, by decide, by decide, step_exited failEnv abortEnd 1 (by decide), by decide,
    by decide, by decide, by decide, by decide⟩

/-- C2, amended: the claim step of a visitor that finds an entry, whatever its
value (the sentinel, a completed entry, a completed entry with an empty file
list), stops the visitor without claiming and without calling the resolver; in
every reachable state every identifier has been claimed at most once, resolved
at most once and is at most once a key of the ledger, it is a key exactly when
it has been claimed, and it is resolved only after its claim; every identifier
whose entry is stored has been claimed once and resolved once; and when the
traversal has finished every reachable identifier has been claimed once,
resolved once and is once a key of the ledger. -/
theorem claim_at_most_once (env : Env) (roots : List GoString) :
    (∀ (s : State) (i : Nat) (p : GoString) (entry : List GoString),
      s.exit = none → s.visitors[i]? = some (.atClaim p) → mget s.deps p = some entry →
      step env s (.visit i) = some { s with visitors := s.visitors.set i (.atDone p) }) ∧
    ∀ sched s, run env (init roots) sched = some s →
      (∀ p, occ p s.claims ≤ 1 ∧ occ p s.calls ≤ 1 ∧ occ p (mkeys s.deps) ≤ 1) ∧
      (∀ p, occ p s.claims = occ p (mkeys s.deps) ∧ occ p s.calls ≤ occ p s.claims) ∧
      (∀ p, p ∈ mkeys s.outputs →
        occ p s.claims = 1 ∧ occ p s.calls = 1 ∧ occ p (mkeys s.deps) = 1) ∧
      (finished s = true → ∀ p, Reach env roots p →
        occ p s.claims = 1 ∧ occ p s.calls = 1 ∧ occ p (mkeys s.deps) = 1) := by
  constructor
  · intro s i p entry he hv hg
    simp only [step, he, hv, stepVisitor, hg]
  · intro sched s hr
    have hi := Inv_reachable env roots sched s hr
    refine ⟨?_, ?_, ?_, ?_⟩
    · intro p
      have h1 := occ_le_one_of_nodup hi.a.nodup_deps p
      have h2 := hi.a.claims_eq p
      have h3 := hi.a.calls_eq p
      omega
    · intro p
      have h2 := hi.a.claims_eq p
      have h3 := hi.a.calls_eq p
      omega
    · intro p hp
      have h1 := occ_le_one_of_nodup hi.a.nodup_deps p
      have h2 := hi.a.claims_eq p
      have h3 := hi.a.calls_eq p
      have h4 := hi.a.outputs_eq p
      have h5 := total_preCall_le p s.visitors
      have h6 := (occ_pos_iff p _).2 hp
      omega
    · intro hf p hp
      exact counts_finished hi hf p hp

/-- C2, amended, on the diamond: `c`, imported by `a` and by `b`, is resolved
once, and a claim step that finds the completed entry of a package without
files stops. -/
theorem claim_at_most_once_witness :
    run diamondEnv (init [ascii "r"]) diamondSchedule = some diamondEnd ∧
    finished diamondEnd = true ∧
    occ (ascii "c") diamondEnd.calls = 1 ∧ occ (ascii "c") (mkeys diamondEnd.deps) = 1 ∧
    step diamondEnv
        { init [ascii "r"] with deps := [(ascii "c", [])], visitors := [.atClaim (ascii "c")] }
        (.visit 0)
      = some { init [ascii "r"] with
          deps := [(ascii "c", [])], visitors := [.atDone (ascii "c")] } :=
  have h := claim_at_most_once diamondEnv [ascii "r"]
  have hr : Reach diamondEnv [ascii "r"] (ascii "r") := Reach.root (by decide)
  have ha : Reach diamondEnv [ascii "r"] (ascii "a") :=
    @Reach.imp _ _ (ascii "r") (ascii "a") (libPkg (ascii "r") [ascii "a", ascii "b"]) hr
      (by decide) (by decide)
  have hc : Reach diamondEnv [ascii "r"] (ascii "c") :=
    @Reach.imp _ _ (ascii "a") (ascii "c") (libPkg (ascii "a") [ascii "c"]) ha
      (by decide) (by decide)
  have hc := (h.2 diamondSchedule diamondEnd (by decide)).2.2.2 (by decide) (ascii "c") hc
  ⟨by decide, by decide, hc.2.1, hc.2.2,
    h.1 { init [ascii "r"] with deps := [(ascii "c", [])], visitors := [.atClaim (ascii "c")] }
      0 (ascii "c") [] (by decide) (by decide) (by decide)⟩

/-- C7: when the resolver fails on a reachable package, no reachable state has
passed the barrier or written anything, the process can exit only with the
status of `log.Fatalf`, it is never blocked before that exit, and every run can
be continued to it; when the reachable graph is finite every run is bounded,
so that every run ends in that exit.  A run that passes the barrier or writes
something has resolved every reachable package. -/
theorem resolver_failure_no_output (env : Env) (roots : List GoString) (hroots : roots ≠ []) :
    (∀ p, Reach env roots p → env.Import p = none →
      ∀ sched s, run env (init roots) sched = some s →
        s.stdout = [] ∧ finished s = false ∧ (∀ c, s.exit = some c → c = 1) ∧
        (s.exit = none → ∃ a s', step env s a = some s') ∧
        (∃ sched' s', run env s sched' = some s' ∧ s'.exit = some 1 ∧ s'.stdout = []) ∧
        ∀ univ, (∀ q, Reach env roots q → q ∈ univ) →
          sched.length ≤ stepsLeft env univ (init roots)) ∧
    (∀ sched s, run env (init roots) sched = some s → (finished s = true ∨ s.stdout ≠ []) →
      ∀ q, Reach env roots q → ∃ pkg, env.Import q = some pkg) := by
  have hsafe : ∀ p, Reach env roots p → env.Import p = none →
      ∀ s, Inv env roots s →
        s.stdout = [] ∧ finished s = false ∧ (∀ c, s.exit = some c → c = 1) := by
    intro p hp hf s hi
    have hnf := not_finished_of_failure env roots s hi p hp hf
    have hnr : s.main ≠ .returned := by
      intro e
      rw [finished_of_returned e] at hnf
      cases hnf
    refine ⟨hi.a.stdout_empty hnr, hnf, ?_⟩
    intro c hc
    rcases exit_cases env roots s hi c hc with ⟨_, hm⟩ | ⟨h1, _⟩ | ⟨_, hn⟩
    · exact absurd hm hnr
    · exact h1
    · exact absurd hn hroots
  constructor
  · intro p hp hf sched s hr
    have hi := Inv_reachable env roots sched s hr
    obtain ⟨h1, h2, h3⟩ := hsafe p hp hf s hi
    refine ⟨h1, h2, h3, progress env roots s hi, ?_, ?_⟩
    · obtain ⟨sched', s', hr', he'⟩ := exists_failure env roots hroots p hp hf s hi
      have hi' := Inv_run env roots sched' s s' hi hr'
      exact ⟨sched', s', hr', he', (hsafe p hp hf s' hi').1⟩
    · intro univ hu
      have := run_length_le env roots univ hu sched (init roots) s (Inv_init env roots) hr
      omega
  · intro sched s hr hout q hq
    have hi := Inv_reachable env roots sched s hr
    cases hf : env.Import q with
    | some pkg => exact ⟨pkg, rfl⟩
    | none =>
      obtain ⟨h1, h2, _⟩ := hsafe q hq hf s hi
      rcases hout with ho | ho
      · rw [h2] at ho; cases ho
      · exact absurd h1 ho

/-- C7 on a root whose import `x` does not resolve: `r` and `a` are stored,
nothing is written, the exit status is 1. -/
theorem resolver_failure_no_output_witness :
    run failEnv (init [ascii "r"]) failSchedule = some failEnd ∧
    mkeys failEnd.outputs = [ascii "r", ascii "a"] ∧ failEnd.exit = some 1 ∧
    failEnd.stdout = [] ∧ finished failEnd = false :=
  have hr : Reach failEnv [ascii "r"] (ascii "r") := Reach.root (by decide)
  have hx : Reach failEnv [ascii "r"] (ascii "x") :=
    @Reach.imp _ _ (ascii "r") (ascii "x") (libPkg (ascii "r") [ascii "a", ascii "x"]) hr
      (by decide) (by decide)
  have h := (resolver_failure_no_output failEnv [ascii "r"] (by decide)).1 (ascii "x")
    hx (by decide) failSchedule failEnd (by decide)
  ⟨by decide, by decide, by decide, h.1, h.2.1⟩

/-- C8 as stated fails on a resolver with a finite reachable graph that fails on
`x`: the reachable identifiers are `r`, `a`, `x`, no run passes the barrier or
returns from `main`, and the run `failSchedule` ends with the visit of `x`
unfinished, the outstanding-work count at 1 and no step left. -/
theorem traversal_terminates_counterexample :
    (∀ p, Reach failEnv [ascii "r"] p → p ∈ [ascii "r", ascii "a", ascii "x"]) ∧
    (∀ sched s, run failEnv (init [ascii "r"]) sched = some s →
      finished s = false ∧ s.exit ≠ some 0) ∧
    run failEnv (init [ascii "r"]) failSchedule = some failEnd ∧
    failEnd.visitors = [.atFatal (ascii "x")] ∧ failEnd.wg = 1 ∧ failEnd.exit = some 1 ∧
    (∀ a, step failEnv failEnd a = none) := by
  have hr : Reach failEnv [ascii "r"] (ascii "r") := Reach.root (by decide)
  have hx : Reach failEnv [ascii "r"] (ascii "x") :=
    @Reach.imp _ _ (ascii "r") (ascii "x") (libPkg (ascii "r") [ascii "a", ascii "x"]) hr
      (by decide) (by decide)
  refine ⟨?_, ?_, by decide, by decide, by decide, by decide, ?_⟩
  · intro p hp
    induction hp with
    | root h =>
      simp only [List.mem_singleton] at h
      subst h
      decide
    | @imp p q pkg _ hpkg hq ih =>
      simp only [List.mem_cons, List.mem_singleton, List.not_mem_nil, or_false] at ih
      rcases ih with e | e | e
      · subst e
        have : pkg = libPkg (ascii "r") [ascii "a", ascii "x"] := by
          have h2 : failEnv.Import (ascii "r")
              = some (libPkg (ascii "r") [ascii "a", ascii "x"]) := by decide
          rw [h2] at hpkg
          exact (Option.some.inj hpkg).symm
        subst this
        simp only [libPkg, List.mem_cons, List.mem_singleton, List.not_mem_nil,
          or_false] at hq
        rcases hq with e | e <;> subst e <;> decide
      · subst e
        have : pkg = libPkg (ascii "a") [] := by
          have h2 : failEnv.Import (ascii "a") = some (libPkg (ascii "a") []) := by decide
          rw [h2] at hpkg
          exact (Option.some.inj hpkg).symm
        subst this
        simp [libPkg] at hq
      · subst e
        have h2 : failEnv.Import (ascii "x") = none := by decide
        rw [h2] at hpkg
        cases hpkg
  · intro sched s h
    have hi := Inv_reachable failEnv [ascii "r"] sched s h
    have hnf := not_finished_of_failure failEnv [ascii "r"] s hi (ascii "x") hx (by decide)
    refine ⟨hnf, ?_⟩
    intro he
    rw [finished_of_returned (hi.a.returned_iff.2 he)] at hnf
    cases hnf
  · exact step_exited failEnv failEnd 1 (by decide)

/-- C8, amended: for a resolver with a finite reachable graph, cycles
included, on which every reachable package resolves, every run is bounded (in
steps and in visits spawned), never blocks before `main` returns and can be
continued to the return of `main`; once the barrier is passed no visitor is
left, the outstanding-work count is zero and every reachable identifier is
once a key of the ledger. -/
theorem traversal_terminates (env : Env) (roots univ : List GoString)
    (hroots : roots ≠ [])
    (hfin : ∀ p, Reach env roots p → p ∈ univ)
    (hok : ∀ p, Reach env roots p → env.Import p ≠ none) :
    ∀ sched s, run env (init roots) sched = some s →
      sched.length ≤ stepsLeft env univ (init roots) ∧
      s.spawned ≤ stepsLeft env univ (init roots) ∧
      (s.exit = none → ∃ a s', step env s a = some s') ∧
      (∃ sched' s', run env s sched' = some s' ∧ s'.exit = some 0 ∧ finished s' = true) ∧
      (finished s = true →
        s.visitors = [] ∧ s.wg = 0 ∧ ∀ p, Reach env roots p → occ p (mkeys s.deps) = 1) := by
  intro sched s hr
  have hi := Inv_reachable env roots sched s hr
  have hlen := run_length_le env roots univ hfin sched (init roots) s (Inv_init env roots) hr
  have hsp := spawned_run env sched (init roots) s hr
  refine ⟨by omega, ?_, progress env roots s hi,
    exists_success env roots univ hroots hfin hok s hi, ?_⟩
  · have h0 : (init roots).spawned = 0 := rfl
    omega
  · intro hf
    have hv := finished_visitors hi.a hf
    refine ⟨hv, ?_, fun p hp => (counts_finished hi hf p hp).2.2⟩
    rw [hi.a.wg_eq, hv]
    rfl

/-- C8, amended, on the cycle `a -> b -> a` with `b` importing itself: the
traversal ends with one entry for `a` and one for `b`. -/
theorem traversal_terminates_witness :
    run cycleEnv (init [ascii "a"]) cycleSchedule = some cycleEnd ∧
    cycleEnd.exit = some 0 ∧ mkeys cycleEnd.deps = [ascii "a", ascii "b"] ∧
    cycleSchedule.length ≤ stepsLeft cycleEnv [ascii "a", ascii "b"] (init [ascii "a"]) ∧
    cycleEnd.visitors = [] ∧ cycleEnd.wg = 0 :=
  have hc := reach_of_closedUnder cycleEnv [ascii "a"] [ascii "a", ascii "b"] (by decide)
  have h := traversal_terminates cycleEnv [ascii "a"] [ascii "a", ascii "b"] (by decide)
    (fun p hp => (hc p hp).1) (fun p hp => (hc p hp).2) cycleSchedule cycleEnd (by decide)
  have hf := h.2.2.2.2 (by decide)
  ⟨by decide, by decide, by decide, h.1, hf.1, hf.2.1⟩

theorem Reach_mono (env : Env) (roots₁ roots₂ : List GoString)
    (h : ∀ r, r ∈ roots₁ → r ∈ roots₂) (p : GoString) (hp : Reach env roots₁ p) :
    Reach env roots₂ p := by
  induction hp with
  | root hr => exact Reach.root (h _ hr)
  | imp _ hpkg hq ih => exact Reach.imp ih hpkg hq

/-- C9: two runs of the pipeline that return from `main`, for one resolver and
build context and two lists of roots with the same members, write the same
bytes, whatever the two schedules and the orders in which the map yields its
keys. -/
theorem output_deterministic (env : Env) (roots₁ roots₂ : List GoString)
    (hset : ∀ r, r ∈ roots₁ ↔ r ∈ roots₂)
    (sched₁ sched₂ : List Action) (s₁ s₂ : State)
    (h₁ : run env (init roots₁) sched₁ = some s₁)
    (h₂ : run env (init roots₂) sched₂ = some s₂)
    (e₁ : s₁.exit = some 0) (e₂ : s₂.exit = some 0) :
    s₁.stdout = s₂.stdout := by
  have hi₁ := Inv_reachable env roots₁ sched₁ s₁ h₁
  have hi₂ := Inv_reachable env roots₂ sched₂ s₂ h₂
  have hm₁ := hi₁.a.returned_iff.2 e₁
  have hm₂ := hi₂.a.returned_iff.2 e₂
  have hf₁ := finished_of_returned hm₁
  have hf₂ := finished_of_returned hm₂
  obtain ⟨o₁, hp₁, ho₁⟩ := hi₁.a.stdout_emit hm₁
  obtain ⟨o₂, hp₂, ho₂⟩ := hi₂.a.stdout_emit hm₂
  have hkeys : ∀ p, p ∈ mkeys s₁.deps ↔ p ∈ mkeys s₂.deps := by
    intro p
    rw [keys_iff_reach_finished hi₁ hf₁, keys_iff_reach_finished hi₂ hf₂]
    exact ⟨Reach_mono env _ _ (fun r hr => (hset r).1 hr) p,
      Reach_mono env _ _ (fun r hr => (hset r).2 hr) p⟩
  have hperm : o₁.Perm o₂ :=
    (hp₁.trans ((List.perm_ext_iff_of_nodup hi₁.a.nodup_deps hi₂.a.nodup_deps).2 hkeys)).trans
      hp₂.symm
  have hsort := sortStrings_eq_of_perm hperm
  rw [ho₁, ho₂]
  simp only [emit, emitLines, hsort]
  congr 1
  apply List.map_congr_left
  intro p hp
  have hp2 : p ∈ mkeys s₂.deps := hp₂.mem_iff.1 ((sortStrings_perm o₂).mem_iff.1 hp)
  have hr2 := (keys_iff_reach_finished hi₂ hf₂ p).1 hp2
  have hr1 := (keys_iff_reach_finished hi₁ hf₁ p).1 ((hkeys p).2 hp2)
  obtain ⟨pkg₁, a₁, b₁, c₁⟩ := entry_finished hi₁ hf₁ p hr1
  obtain ⟨pkg₂, a₂, b₂, c₂⟩ := entry_finished hi₂ hf₂ p hr2
  rw [a₁] at a₂
  cases a₂
  simp only [ruleOf, b₁, c₁, b₂, c₂]

/-- C9 on the diamond: the roots `a`, `b` and the roots `b`, `a`, `b`, under two
schedules and two orders of the map, give the same three lines. -/
theorem output_deterministic_witness :
    pairEnd.calls ≠ pairEnd2.calls ∧ mkeys pairEnd.deps ≠ mkeys pairEnd2.deps ∧
    pairEnd.stdout = pairEnd2.stdout ∧
    pairEnd.stdout = ascii "/go/pkg/linux_amd64/a.a: /go/src/a.go\n"
      ++ ascii "/go/pkg/linux_amd64/b.a: /go/src/b.go\n"
      ++ ascii "/go/pkg/linux_amd64/c.a: /go/src/c.go\n" :=
  ⟨by decide, by decide,
    output_deterministic diamondEnv [ascii "a", ascii "b"] [ascii "b", ascii "a", ascii "b"]
      (by intro r; simp only [List.mem_cons, List.not_mem_nil, or_false]; tauto)
      pairSchedule pairSchedule2 pairEnd pairEnd2 (by decide) (by decide)
      (by decide) (by decide),
    by decide⟩

theorem total_inCall_le (l : List Visitor) : total inCall l ≤ total holds l := by
  induction l with
  | nil => simp
  | cons v vs ih =>
    simp only [total_cons]
    cases v <;> simp [inCall, holds] <;> omega

/-- C10: in every reachable state the number of visitors between the send on
`fdlimit` and the deferred receive is the number of occupied slots, at most
128, and bounds the number of resolver calls in flight; a visitor at the send
moves only while a slot is free; only a visitor holding a slot calls the
resolver; a visitor that returns holds no slot, and no slot is held once all
visitors have returned. -/
theorem fdlimit_never_exceeded (env : Env) (roots : List GoString) (sched : List Action)
    (s : State) (h : run env (init roots) sched = some s) :
    total holds s.visitors = s.fdlimit ∧ s.fdlimit ≤ 128 ∧
    total inCall s.visitors ≤ s.fdlimit ∧
    (∀ i p, s.visitors[i]? = some (.atAcquire p) →
      ((∃ s', step env s (.visit i) = some s') ↔ (s.exit = none ∧ s.fdlimit < 128))) ∧
    (∀ a s', step env s a = some s' → s'.calls ≠ s.calls →
      ∃ i p, a = .visit i ∧ s.visitors[i]? = some (.atImport p) ∧ holds (.atImport p) = 1) ∧
    (∀ a s', step env s a = some s' → s'.visitors.length < s.visitors.length →
      (∃ i p, a = .visit i ∧ s.visitors[i]? = some (.atDone p) ∧ holds (.atDone p) = 0) ∧
      s'.fdlimit = s.fdlimit) ∧
    (s.visitors = [] → s.fdlimit = 0) := by
  have hi := Inv_reachable env roots sched s h
  refine ⟨hi.a.fd_eq.symm, hi.a.fd_le, ?_, ?_, ?_, ?_, ?_⟩
  · rw [hi.a.fd_eq]; exact total_inCall_le _
  · intro i p hv
    cases he : s.exit with
    | some c => simp [step, he]
    | none =>
      by_cases hfd : s.fdlimit < 128
      · simp [step, he, hv, stepVisitor, fdlimitCap, hfd]
      · simp [step, he, hv, stepVisitor, fdlimitCap, hfd]
  · intro a s' hs hne
    cases a with
    | launch =>
      simp only [step] at hs
      split at hs
      · cases hs; exact absurd rfl hne
      · cases hs
    | wait =>
      simp only [step] at hs
      split at hs
      · split at hs
        · cases hs; exact absurd rfl hne
        · cases hs
      · cases hs
    | report order =>
      simp only [step] at hs
      split at hs
      · split at hs
        · cases hs; exact absurd rfl hne
        · cases hs
      · cases hs
    | visit i =>
      simp only [step] at hs
      split at hs
      · rename_i v he hv
        cases v with
        | atImport p => exact ⟨i, p, rfl, hv, rfl⟩
        | atClaim p =>
          simp only [stepVisitor] at hs
          split at hs <;> cases hs <;> exact absurd rfl hne
        | atAcquire p =>
          simp only [stepVisitor] at hs
          split at hs
          · cases hs; exact absurd rfl hne
          · cases hs
        | atFatal p => simp [stepVisitor] at hs
        | atStore p pkg => simp only [stepVisitor] at hs; cases hs; exact absurd rfl hne
        | atSpawn p rest =>
          cases rest <;> simp only [stepVisitor] at hs <;> cases hs <;> exact absurd rfl hne
        | atRelease p => simp only [stepVisitor] at hs; cases hs; exact absurd rfl hne
        | atDone p => simp only [stepVisitor] at hs; cases hs; exact absurd rfl hne
      · cases hs
  · intro a s' hs hlt
    cases a with
    | launch =>
      simp only [step] at hs
      split at hs
      · cases hs; simp at hlt
      · cases hs
    | wait =>
      simp only [step] at hs
      split at hs
      · split at hs
        · cases hs; simp at hlt
        · cases hs
      · cases hs
    | report order =>
      simp only [step] at hs
      split at hs
      · split at hs
        · cases hs; simp at hlt
        · cases hs
      · cases hs
    | visit i =>
      simp only [step] at hs
      split at hs
      · rename_i v he hv
        cases v with
        | atDone p =>
          simp only [stepVisitor] at hs
          cases hs
          exact ⟨⟨i, p, rfl, hv, rfl⟩, rfl⟩
        | atClaim p =>
          simp only [stepVisitor] at hs
          split at hs <;> cases hs <;> simp at hlt
        | atAcquire p =>
          simp only [stepVisitor] at hs
          split at hs
          · cases hs; simp at hlt
          · cases hs
        | atImport p =>
          simp only [stepVisitor] at hs
          split at hs <;> cases hs <;> simp at hlt
        | atFatal p => simp [stepVisitor] at hs
        | atStore p pkg => simp only [stepVisitor] at hs; cases hs; simp at hlt
        | atSpawn p rest =>
          cases rest <;> simp only [stepVisitor] at hs <;> cases hs <;> simp at hlt
        | atRelease p => simp only [stepVisitor] at hs; cases hs; simp at hlt
      · cases hs
  · intro hv
    rw [hi.a.fd_eq, hv]
    rfl

/-- C10 on the diamond, at the moment the visitor of `r` is inside the
resolver: one slot is occupied, by that visitor. -/
theorem fdlimit_never_exceeded_witness :
    run diamondEnv (init [ascii "r"]) holdSchedule = some holdState ∧
    holdState.visitors = [.atImport (ascii "r")] ∧ holdState.fdlimit = 1 ∧
    total holds holdState.visitors = holdState.fdlimit ∧ holdState.fdlimit ≤ 128 ∧
    total inCall holdState.visitors ≤ holdState.fdlimit :=
  have h := fdlimit_never_exceeded diamondEnv [ascii "r"] holdSchedule holdState (by decide)
  ⟨by decide, by decide, by decide, h.1, h.2.1, h.2.2.1⟩

end Deplistgo
